import Mathlib

/-!
Verification of the GEOMetaX resolution engine (CistromeMetaX repository).

This file gives a shallow embedding, in Lean 4, of the string-normalization
utilities, the histone-mark grammar validator, the factor verification loop,
and the ontology matching waterfall of `GEOMetaX/parser_extractor.py` and
`GEOMetaX/processor.py`, together with theorems settling the specification
claims about them.

Modelling conventions:
* Python strings are Lean `String`s; character-level work is done on
  `List Char` (`String.data`).  The inputs of interest are ASCII, so
  `Char.toLower`/`Char.isAlphanum` model Python's `str.lower()` and the
  regex classes `\w`, `\s`.
* Python `None` is `Option.none`; a function that can raise is embedded as
  an `Except Unit` value.
* External oracle calls (LLM-backed pickers, synonym/alternate-name
  generators, the fuzzy similarity scorer of `rapidfuzz`) are parameters of
  the embedded functions.
* Python dicts used as JSON-like records are association lists
  (`List (String × Val)`), looked up by first match; dicts used as indexes
  are association lists `List (String × List Entry)` iterated in insertion
  order, exactly as Python's insertion-ordered dict iteration.
-/

/-! ## Python value model -/

/-- Model of the JSON-like Python values stored in ontology entries and in
the per-identifier output record: `None`, strings, and lists of strings
(the only list values the pipeline produces: the merged field values of
`collapse_ontology_terms`; a list value nested deeper would make Python's
`set(values)` raise `TypeError: unhashable`). -/
inductive Val where
  | none : Val
  | str : String → Val
  | list : List String → Val
deriving DecidableEq, Repr

/-- An ontology entry: a Python dict with string keys, modelled as an
association list (first binding wins, as produced by dict literals). -/
abbrev Entry := List (String × Val)

/-- Dict lookup: `d[k]` / `d.get(k)` on an association list. -/
def dictGet (k : String) (d : Entry) : Option Val :=
  match d with
  | [] => Option.none
  | (k₀, v) :: rest => if k₀ = k then some v else dictGet k rest

/-- Dict update `{**d, k: v}`: replaces the binding of `k` if present,
otherwise appends it. -/
def dictSet (k : String) (v : Val) (d : Entry) : Entry :=
  match d with
  | [] => [(k, v)]
  | (k₀, v₀) :: rest => if k₀ = k then (k₀, v) :: rest else (k₀, v₀) :: dictSet k v rest

/-! ## Normalizer (shared string utilities)

`clean_input`, `clean_input_fuzzy`, `process_string` appear both in
`processor.py` (index building) and `parser_extractor.py` (query side).
The only difference between the two `process_string`s is the join
separator: `" ".join` in `processor.py`, `"".join` in `parser_extractor.py`.
-/

/-- A character matched by the regex class `\w` (ASCII fragment):
alphanumeric or underscore. -/
def isWordChar (c : Char) : Bool := c.isAlphanum || c = '_'

/-- Core of `clean_input`: lowercase, then drop every non-`\w` character. -/
def cleanChars (cs : List Char) : List Char :=
  (cs.map Char.toLower).filter isWordChar

/-- Embeds `clean_input` (present identically in both modules): lowercase
and strip every character that is not alphanumeric or underscore. -/
def clean_input (s : String) : String := String.mk (cleanChars s.data)

/-- Core of `clean_input_fuzzy`: lowercase, then drop every character that
is neither `\w` nor whitespace. -/
def cleanFuzzyChars (cs : List Char) : List Char :=
  (cs.map Char.toLower).filter (fun c => isWordChar c || c.isWhitespace)

/-- Embeds `clean_input_fuzzy`: lowercase and strip symbols but preserve
whitespace. -/
def clean_input_fuzzy (s : String) : String := String.mk (cleanFuzzyChars s.data)

/-- Whitespace split in the manner of Python's `str.split()` with no
arguments: split on whitespace runs, dropping empty pieces.  The
accumulator holds the current word reversed. -/
def splitWsAux : List Char → List Char → List (List Char)
  | [], acc => if acc.isEmpty then [] else [acc.reverse]
  | c :: rest, acc =>
    if c.isWhitespace then
      if acc.isEmpty then splitWsAux rest [] else acc.reverse :: splitWsAux rest []
    else splitWsAux rest (c :: acc)

/-- Embeds `s.split()`. -/
def splitWs (cs : List Char) : List (List Char) := splitWsAux cs []

/-- The fixed stop-word list `words_to_remove`, identical (including the
duplicated `"to"`) in both modules. -/
def WORDS_TO_REMOVE : List String :=
  ["cell", "line", "primary", "the", "of", "and",
   "or", "but", "tissue", "cells", "human", "for",
   "organ", "region", "system", "sample", "assay",
   "disease", "to", "measurement", "down", "up", "part",
   "layer", "membrane", "area", "to", "like", "related",
   "type", "with", "amount", "containing"]

/-- Joins word lists with a separator: `sep.join(ws)`. -/
def joinSep (sep : List Char) : List (List Char) → List Char
  | [] => []
  | w :: ws =>
    match ws with
    | [] => w
    | _ :: _ => w ++ sep ++ joinSep sep ws

/-- The shared front half of both `process_string`s: split on whitespace,
clean each word, drop stop-words (when `remove`) and empty words. -/
def processedWords (s : String) (remove : Bool) : List (List Char) :=
  ((splitWs s.data).map cleanChars).filter
    (fun w => !((if remove then WORDS_TO_REMOVE else []).contains (String.mk w)) && !w.isEmpty)

namespace processor

/-- Embeds `processor.remove_spaces`: delete every whitespace character
(`re.sub(r'\s+', '', text)`). -/
def remove_spaces (s : String) : String :=
  String.mk (s.data.filter (fun c => !c.isWhitespace))

/-- Embeds `processor.process_string`: `None`/empty input gives `None`;
otherwise split, clean, filter, and rejoin with `" "`. -/
def process_string (s : Option String) (remove : Bool) : Option String :=
  match s with
  | Option.none => Option.none
  | some str =>
    if str = "" then Option.none
    else some (String.mk (joinSep [' '] (processedWords str remove)))

end processor

namespace parser_extractor

/-- Embeds `parser_extractor.process_string`: identical to the
`processor.py` version except that the filtered words are rejoined with
`""` instead of `" "`. -/
def process_string (s : Option String) (remove : Bool) : Option String :=
  match s with
  | Option.none => Option.none
  | some str =>
    if str = "" then Option.none
    else some (String.mk (joinSep [] (processedWords str remove)))

end parser_extractor

/-! ## HistoneGrammar (`validate_histone_mark`)

The validator of `parser_extractor.py`: extract the histone variant by
trying the variant names sorted by length, longest first; then repeatedly
consume residue / position / modification groups with an optional
symmetry suffix.
-/

/-- The fixed set `HISTONE_VARIANTS`, in the order written in the source
(a Python set literal; the code always sorts it by length before use, so
the literal order is irrelevant). -/
def HISTONE_VARIANTS : List String :=
  ["H1", "H1.0", "H1.1", "H1.2", "H1.3", "H1.4", "H1.5", "H1.6", "H1.7", "H1ts",
   "H1FNT", "H1t", "H1.8", "H1oo", "H1Foo", "H1.9", "H1.10", "H1X",
   "H2A", "H2A.1", "H2A.2", "H2A.X", "H2A.Z", "mH2A", "macroH2a", "H2A.B",
   "H2A.L", "H2A.P", "H2A.J", "H2A.Lap1", "H2A.Bbd",
   "H2B", "H2B.1", "H2B.W", "H2B.Z", "H2B.K", "H2B.N", "H2BL1",
   "H3", "H3.1", "H3.2", "H3.3", "H3.4", "H3.5", "H3.X", "H3.Y", "H3.6",
   "CENPA", "H3.7", "H3.8", "H3T",
   "H4"]

/-- The fixed residue → allowed-modification-codes table `VALID_PTMS`. -/
def VALID_PTMS : List (Char × List String) :=
  [('K', ["ac", "ar1", "bio", "but", "cr", "for", "hib", "mal", "me1", "me2",
          "me3", "oh", "su", "ub", "gl", "ph", "gt"]),
   ('R', ["ar1", "cit", "me1", "me2", "me3"]),
   ('S', ["ph", "og", "fa", "pal", "amp"]),
   ('T', ["ph", "og", "fa", "amp"]),
   ('Y', ["ph", "ox", "amp", "sul"]),
   ('C', ["ar1", "gt", "ox", "fa", "pal", "nit", "pt"]),
   ('E', ["ar1", "iso", "pyr"]),
   ('D', ["ar1", "iso"]),
   ('P', ["oh"]),
   ('M', ["ox"]),
   ('W', ["ox", "ph"]),
   ('G', ["fa", "myr"]),
   ('N', ["fa", "pal"]),
   ('Q', ["pyr"])]

/-- Lookup `VALID_PTMS[residue]` (`residue in VALID_PTMS` / indexing). -/
def ptmsFor (c : Char) : Option (List String) := VALID_PTMS.lookup c

/-- Boolean `startswith` on character lists. -/
def isPref : List Char → List Char → Bool
  | [], _ => true
  | _ :: _, [] => false
  | a :: as, b :: bs => a = b && isPref as bs

/-- Inserts a word into a list kept sorted by length, longest first;
building block of `sortLenDesc`. -/
def insertLenDesc (v : List Char) : List (List Char) → List (List Char)
  | [] => [v]
  | w :: ws => if w.length < v.length then v :: w :: ws else w :: insertLenDesc v ws

/-- Embeds `sorted(xs, key=len, reverse=True)` (insertion sort; only the
"sorted by length, longest first" property and the membership of the
result matter, both proved below). -/
def sortLenDesc (l : List (List Char)) : List (List Char) :=
  l.foldr insertLenDesc []

/-- Step 1 of `validate_histone_mark`: the first variant, in
longest-first order, that is a prefix of the mark. -/
def variantOf (cs : List Char) : Option (List Char) :=
  (sortLenDesc (HISTONE_VARIANTS.map String.data)).find? (fun v => isPref v cs)

/-- The modification-code match: the first code of the residue's table, in
longest-first order, that is a prefix of the lowercased remaining text
(`mod_part[i:].lower().startswith(ptm)`). -/
def findPtm (ptms : List String) (rest : List Char) : Option (List Char) :=
  (sortLenDesc (ptms.map String.data)).find? (fun p => isPref p (rest.map Char.toLower))

/-- The `while i < len(mod_part)` loop of `validate_histone_mark`,
written with explicit fuel so that it is structurally recursive (each
iteration consumes at least two characters, so `mod_part.length` fuel is
always enough; adequacy is part of the correctness proof below):
read a residue letter (upper-cased) and look it up; read one or more
digits; match the longest allowed modification code case-insensitively;
optionally consume a single `'s'`/`'a'` symmetry suffix. -/
def groupsGo : Nat → List Char → Bool
  | _, [] => true
  | 0, _ :: _ => false
  | Nat.succ fuel, c :: rest =>
    match ptmsFor c.toUpper with
    | Option.none => false
    | some ptms =>
      let pos := rest.takeWhile Char.isDigit
      if pos.isEmpty then false
      else
        let rest₂ := rest.drop pos.length
        match findPtm ptms rest₂ with
        | Option.none => false
        | some ptm =>
          match rest₂.drop ptm.length with
          | [] => true
          | d :: rest₄ =>
            if d = 's' || d = 'a' then groupsGo fuel rest₄ else groupsGo fuel (d :: rest₄)

/-- Embeds `validate_histone_mark`: longest-prefix variant extraction,
then the residue/position/modification loop over the remainder. -/
def validate_histone_mark (mark : String) : Bool :=
  match variantOf mark.data with
  | Option.none => false
  | some variant => groupsGo mark.data.length (mark.data.drop variant.length)

/-! Specification-side grammar for the histone validator (the wording of
the claim): a recognized variant name matched by longest prefix, followed
by residue/position/modification groups — a residue letter whose
upper-case form is a key of the residue table, one or more digits, an
allowed modification code matched case-insensitively (longest match;
within each residue's table no code is a prefix of another, so the
matched code is in fact unique), and an optional single symmetry suffix
`'s'` or `'a'`, consumed greedily whenever present — that together
consume every remaining character. -/

/-- Holds when the text cannot continue with a symmetry suffix: the
greedy reading of "optional" (the code always consumes an `'s'`/`'a'`
that immediately follows a modification code). -/
def headNotSym : List Char → Prop
  | [] => True
  | d :: _ => ¬(d = 's' ∨ d = 'a')

/-- Declarative form of the group loop: the text splits into zero or more
residue/position/modification(/suffix) groups. -/
inductive HistoneGroups : List Char → Prop where
  | nil : HistoneGroups []
  | noSuffix (c : Char) (pos ptmRaw tail : List Char) (ptms : List String) (ptm : String)
      (hres : ptmsFor c.toUpper = some ptms)
      (hpos : pos ≠ []) (hdig : ∀ d ∈ pos, d.isDigit = true)
      (hmem : ptm ∈ ptms) (hraw : ptmRaw.map Char.toLower = ptm.data)
      (hns : headNotSym tail) (htail : HistoneGroups tail) :
      HistoneGroups (c :: (pos ++ ptmRaw ++ tail))
  | withSuffix (c : Char) (pos ptmRaw tail : List Char) (ptms : List String)
      (ptm : String) (d : Char)
      (hres : ptmsFor c.toUpper = some ptms)
      (hpos : pos ≠ []) (hdig : ∀ d₀ ∈ pos, d₀.isDigit = true)
      (hmem : ptm ∈ ptms) (hraw : ptmRaw.map Char.toLower = ptm.data)
      (hd : d = 's' ∨ d = 'a') (htail : HistoneGroups tail) :
      HistoneGroups (c :: (pos ++ ptmRaw ++ d :: tail))

/-- The variant of the claim's grammar: a member of `HISTONE_VARIANTS`
that is a prefix of the mark of maximal length among all such members. -/
def LongestVariant (cs v : List Char) : Prop :=
  v ∈ HISTONE_VARIANTS.map String.data ∧ isPref v cs = true ∧
    ∀ w ∈ HISTONE_VARIANTS.map String.data, isPref w cs = true → w.length ≤ v.length

/-- The claim's grammar as stated (C3): longest-prefix variant followed by
ONE OR MORE groups consuming the whole remainder. -/
def histoneMarkSpecOnePlus (s : String) : Prop :=
  ∃ v, LongestVariant s.data v ∧ s.data.drop v.length ≠ [] ∧
    HistoneGroups (s.data.drop v.length)

/-- The amended grammar: longest-prefix variant followed by ZERO OR MORE
groups consuming the whole remainder (a bare variant name is accepted). -/
def histoneMarkSpec (s : String) : Prop :=
  ∃ v, LongestVariant s.data v ∧ HistoneGroups (s.data.drop v.length)

/-! ## OntologyResolver data model

Four candidate slots, validated slot values, and ontology indexes.  An
index (`efo.json`, `uberon.json`, …) is an insertion-ordered dict from a
normalized key to a list of entries; it is modelled as an association
list iterated in order.  The `ensure_list` helper of the source is the
identity on these list-valued indexes and is therefore not modelled
separately.
-/

/-- The four ontology slots, in the fixed iteration order
`["cell_line", "cell_type", "tissue", "disease"]` of the source. -/
inductive Slot where
  | cell_line | cell_type | tissue | disease
deriving DecidableEq, Repr

/-- The slot key strings used in the per-entry `term_identity` tag. -/
def slotName : Slot → String
  | Slot.cell_line => "cell_line"
  | Slot.cell_type => "cell_type"
  | Slot.tissue => "tissue"
  | Slot.disease => "disease"

/-- The fixed slot iteration order of the source loops. -/
def SLOTS : List Slot := [Slot.cell_line, Slot.cell_type, Slot.tissue, Slot.disease]

/-- The candidate object `extracted_ontologies`: per slot, the raw
string the oracle proposed (`Option.none` models an absent/`None`
value; the sentinel is the literal string `"N/A"`). -/
structure ExtractedOntologies where
  cell_line : Option String
  cell_type : Option String
  tissue : Option String
  disease : Option String
deriving DecidableEq, Repr

def getSlot (o : ExtractedOntologies) : Slot → Option String
  | Slot.cell_line => o.cell_line
  | Slot.cell_type => o.cell_type
  | Slot.tissue => o.tissue
  | Slot.disease => o.disease

/-- The mutable `validated` dict restricted to the four slot keys: per
slot either `Option.none` (Python `None` or key absent — the two are
indistinguishable to every read the source performs) or the non-empty
list of matching entries. -/
structure ValidatedSlots where
  cell_line : Option (List Entry)
  cell_type : Option (List Entry)
  tissue : Option (List Entry)
  disease : Option (List Entry)
deriving DecidableEq, Repr

def getVSlot (v : ValidatedSlots) : Slot → Option (List Entry)
  | Slot.cell_line => v.cell_line
  | Slot.cell_type => v.cell_type
  | Slot.tissue => v.tissue
  | Slot.disease => v.disease

def setVSlot (v : ValidatedSlots) : Slot → Option (List Entry) → ValidatedSlots
  | Slot.cell_line, x => { v with cell_line := x }
  | Slot.cell_type, x => { v with cell_type := x }
  | Slot.tissue, x => { v with tissue := x }
  | Slot.disease, x => { v with disease := x }

/-- The all-unresolved initial `validated = {}`. -/
def emptyValidated : ValidatedSlots :=
  { cell_line := Option.none, cell_type := Option.none,
    tissue := Option.none, disease := Option.none }

/-- An ontology index: insertion-ordered dict from normalized key to the
list of entries filed under that key. -/
abbrev Index := List (String × List Entry)

/-- Membership test plus indexing, `term_key in index` / `index[term_key]`. -/
def indexGet (idx : Index) (k : String) : Option (List Entry) :=
  match idx with
  | [] => Option.none
  | (k₀, v) :: rest => if k₀ = k then some v else indexGet rest k

/-- Tags a match with the query, `{**match, "term": original,
"term_identity": key}`. -/
def tagEntry (orig : String) (slot : Slot) (e : Entry) : Entry :=
  dictSet "term_identity" (Val.str (slotName slot)) (dictSet "term" (Val.str orig) e)

/-- One slot of the exact/reduced tier `validate_ontology`: skip the
`"N/A"` sentinel and already-resolved slots; normalize the candidate with
`process_string`; collect the EFO then the Uberon entries filed under the
normalized key (the `cellosaurus_index` argument of the source is never
consulted — see the C1 theorem); `None` when nothing matched. -/
def validateOntologySlot (slotVal : Option String) (cur : Option (List Entry))
    (remove : Bool) (efo_index uberon_index : Index) (slot : Slot) :
    Option (List Entry) :=
  if slotVal = some "N/A" ∨ cur ≠ Option.none then cur
  else
    match slotVal with
    | Option.none => Option.none
    | some s =>
      match parser_extractor.process_string (some s) remove with
      | Option.none => Option.none
      | some termKey =>
        if termKey = "" then Option.none
        else
          let efoM := ((indexGet efo_index termKey).getD []).map (tagEntry s slot)
          let uberonM := ((indexGet uberon_index termKey).getD []).map (tagEntry s slot)
          let ms := efoM ++ uberonM
          if ms.isEmpty then Option.none else some ms

/-- Embeds `validate_ontology`: the per-slot exact lookup applied to the
four slots in order; each iteration reads and writes only its own slot.
The `cellosaurus_index` parameter is accepted, exactly as in the source,
but never read. -/
def validate_ontology (extracted_obj : ExtractedOntologies)
    (cellosaurus_index efo_index uberon_index : Index)
    (remove_words : Bool) (validated : ValidatedSlots) : ValidatedSlots :=
  { cell_line := validateOntologySlot extracted_obj.cell_line validated.cell_line
      remove_words efo_index uberon_index Slot.cell_line
    cell_type := validateOntologySlot extracted_obj.cell_type validated.cell_type
      remove_words efo_index uberon_index Slot.cell_type
    tissue := validateOntologySlot extracted_obj.tissue validated.tissue
      remove_words efo_index uberon_index Slot.tissue
    disease := validateOntologySlot extracted_obj.disease validated.disease
      remove_words efo_index uberon_index Slot.disease }

/-- The accumulation loop of `fuzzy_match`: walk the index in insertion
order carrying `(matches, max_score)` with `max_score` starting at 0.85;
a key scoring strictly above the running maximum replaces the
accumulated matches, a key scoring exactly the running maximum is
appended.  The similarity scorer (`fuzz.token_sort_ratio(term, key) /
100` of `rapidfuzz`) is the external parameter `score`. -/
def fuzzyLoop (score : String → String → ℚ) (term : String) :
    List (String × List Entry) → List Entry → ℚ → List Entry
  | [], acc, _ => acc
  | (key, values) :: rest, acc, maxScore =>
    let s := score term key
    if s ≥ maxScore then
      if s > maxScore then fuzzyLoop score term rest values s
      else fuzzyLoop score term rest (acc ++ values) maxScore
    else fuzzyLoop score term rest acc maxScore

/-- Embeds the inner `fuzzy_match` of `validate_ontology_fuzzy`. -/
def fuzzy_match (score : String → String → ℚ) (term : String) (index : Index) :
    Option (List Entry) :=
  let r := fuzzyLoop score term index [] (85/100)
  if r.isEmpty then Option.none else some r

/-- Specification-side running maximum of the fuzzy tier: the largest
similarity score over the index keys, floored at the 0.85 threshold. -/
def fuzzyRunningMax (score : String → String → ℚ) (term : String)
    (l : List (String × List Entry)) (m : ℚ) : ℚ :=
  l.foldl (fun acc kv => max acc (score term kv.1)) m

/-- Specification-side fuzzy result: the concatenated entry lists of
every index key whose score equals the running maximum (empty when no
key reaches the 0.85 floor, because then no key scores the floored
maximum). -/
def fuzzySpecResult (score : String → String → ℚ) (term : String)
    (index : Index) : List Entry :=
  ((index.filter (fun kv =>
      score term kv.1 = fuzzyRunningMax score term index (85/100))).map
    Prod.snd).flatten

/-- One slot of the fuzzy tier `validate_ontology_fuzzy`. -/
def validateOntologyFuzzySlot (score : String → String → ℚ)
    (slotVal : Option String) (cur : Option (List Entry))
    (efo_fuzzy uberon_fuzzy : Index) (slot : Slot) : Option (List Entry) :=
  if slotVal = some "N/A" ∨ cur ≠ Option.none then cur
  else
    match slotVal with
    | Option.none => Option.none
    | some s =>
      let termKey := clean_input_fuzzy s
      if termKey = "" then Option.none
      else
        let efoM := ((fuzzy_match score termKey efo_fuzzy).getD []).map (tagEntry s slot)
        let uberonM := ((fuzzy_match score termKey uberon_fuzzy).getD []).map (tagEntry s slot)
        let ms := efoM ++ uberonM
        if ms.isEmpty then Option.none else some ms

/-- Embeds `validate_ontology_fuzzy` (again, the `cellosaurus_fuzzy_index`
parameter is never read by the source). -/
def validate_ontology_fuzzy (extracted_obj : ExtractedOntologies)
    (cellosaurus_fuzzy_index efo_fuzzy_index uberon_fuzzy_index : Index)
    (score : String → String → ℚ) (validated : ValidatedSlots) : ValidatedSlots :=
  { cell_line := validateOntologyFuzzySlot score extracted_obj.cell_line
      validated.cell_line efo_fuzzy_index uberon_fuzzy_index Slot.cell_line
    cell_type := validateOntologyFuzzySlot score extracted_obj.cell_type
      validated.cell_type efo_fuzzy_index uberon_fuzzy_index Slot.cell_type
    tissue := validateOntologyFuzzySlot score extracted_obj.tissue
      validated.tissue efo_fuzzy_index uberon_fuzzy_index Slot.tissue
    disease := validateOntologyFuzzySlot score extracted_obj.disease
      validated.disease efo_fuzzy_index uberon_fuzzy_index Slot.disease }

/-- The argument of `process_ontology`: the nested
`{"ontologies": {"extracted_ontologies": …}, "geo": …}` object,
flattened. -/
structure InputOntology where
  extracted_ontologies : ExtractedOntologies
  geo : String
deriving DecidableEq, Repr

/-- The value returned by `process_ontology`: the validated slots plus
the `geo` and `extracted` fields it adds. -/
structure ProcessedOntology where
  slots : ValidatedSlots
  geo : String
  extracted : ExtractedOntologies
deriving DecidableEq, Repr

/-- Embeds `process_ontology`: the five-tier waterfall — full index
without and with stop-word removal, reduced index without and with
stop-word removal, then the fuzzy pass — threading the `validated`
object through the stages. -/
def process_ontology (score : String → String → ℚ)
    (cellosaurus_index efo_index uberon_index
      cellosaurus_reduce_index efo_reduce_index uberon_reduce_index
      cellosaurus_fuzzy_index efo_fuzzy_index uberon_fuzzy_index : Index)
    (extracted_object : InputOntology) : ProcessedOntology :=
  let ont := extracted_object.extracted_ontologies
  let v₁ := validate_ontology ont cellosaurus_index efo_index uberon_index
    false emptyValidated
  let v₂ := validate_ontology ont cellosaurus_index efo_index uberon_index
    true v₁
  let v₃ := validate_ontology ont cellosaurus_reduce_index efo_reduce_index
    uberon_reduce_index false v₂
  let v₄ := validate_ontology ont cellosaurus_reduce_index efo_reduce_index
    uberon_reduce_index true v₃
  let v₅ := validate_ontology_fuzzy ont cellosaurus_fuzzy_index efo_fuzzy_index
    uberon_fuzzy_index score v₄
  { slots := v₅, geo := extracted_object.geo, extracted := ont }

/-! ## Final collapse (`collapse_ontology_terms`) -/

/-- First-occurrence deduplication; the deterministic stand-in for
Python's `list(set(values))`, whose iteration order is unspecified. -/
def dedupKeepFirstAux {α : Type} [DecidableEq α] : List α → List α → List α
  | [], _ => []
  | a :: as, seen =>
    if a ∈ seen then dedupKeepFirstAux as seen
    else a :: dedupKeepFirstAux as (a :: seen)

def dedupKeepFirst {α : Type} [DecidableEq α] (l : List α) : List α :=
  dedupKeepFirstAux l []

/-- The grouping key `entry['official_term']` (`Option.none` when the
key is missing, in which case the source raises `KeyError`). -/
def officialTermOf (e : Entry) : Option Val := dictGet "official_term" e

/-- Appends an entry to its group inside the insertion-ordered `grouped`
dict. -/
def addToGroup (t : Option Val) (e : Entry) :
    List (Option Val × List Entry) → List (Option Val × List Entry)
  | [] => [(t, [e])]
  | (t₀, es) :: rest =>
    if t₀ = t then (t₀, es ++ [e]) :: rest else (t₀, es) :: addToGroup t e rest

/-- The `grouped` dict of `collapse_ontology_terms`: insertion-ordered
groups keyed by official term. -/
def groupByTerm (entries : List Entry) : List (Option Val × List Entry) :=
  entries.foldl (fun gs e => addToGroup (officialTermOf e) e gs) []

/-- The union of the groups' field keys other than `official_term`
(Python uses a set; only membership matters downstream, modelled in
first-occurrence order). -/
def groupKeys (group : List Entry) : List String :=
  (dedupKeepFirst ((group.map (fun e => e.map Prod.fst)).flatten)).filter
    (fun k => k ≠ "official_term")

/-- The values collected for one field of one group: present and
non-`None`. -/
def fieldValues (group : List Entry) (k : String) : List Val :=
  group.filterMap (fun e =>
    match dictGet k e with
    | some v => if v = Val.none then Option.none else some v
    | Option.none => Option.none)

/-- Extracts the string of a scalar value (every value reaching the
multi-valued branch is a string under the hashability guard). -/
def valStr : Val → Option String
  | Val.str s => some s
  | _ => Option.none

/-- One merged object: the scalar `official_term` plus, per other field,
the scalar single distinct value or the list of distinct values. -/
def collapseGroup (t : Val) (group : List Entry) : Entry :=
  ("official_term", t) ::
    (groupKeys group).map (fun k =>
      let uv := dedupKeepFirst (fieldValues group k)
      (k, match uv with
          | [v] => v
          | vs => Val.list (vs.filterMap valStr)))

/-- Specification-side form of the `grouped` dict: one group per
distinct official term, in first-appearance order, each group holding
the entries with that term in input order. -/
def specGroups (xs : List Entry) : List (Option Val × List Entry) :=
  (dedupKeepFirst (xs.map officialTermOf)).map
    (fun t => (t, xs.filter (fun e => officialTermOf e = t)))

/-- A value Python can hash (a list value would raise `TypeError` inside
`set(values)` or as a dict key). -/
def valHashable : Val → Bool
  | Val.list _ => false
  | _ => true

/-- Embeds `collapse_ontology_terms`.  The source raises when an entry
lacks `official_term` (`KeyError`) or holds a list value (`TypeError`
from `set`/dict hashing); both are modelled as `Except.error`.  On clean
input: group by official term in first-appearance order, then merge each
group field-wise — a single distinct value stays scalar, several distinct
values become the list of distinct values. -/
def collapse_ontology_terms (entries : List Entry) : Except Unit (List Entry) :=
  if entries.all (fun e => (officialTermOf e).isSome)
      && entries.all (fun e => e.all (fun kv => valHashable kv.2)) then
    Except.ok ((groupByTerm entries).map (fun g =>
      collapseGroup (g.1.getD Val.none) g.2))
  else Except.error ()

/-! ## Retry round and orchestration (`verify_ontology`,
`extract_verify_ontology`, `_format_output_structure`) -/

/-- Does any of the four slot keys still hold `None`?  (`is_incomplete`.) -/
def is_incomplete (v : ValidatedSlots) : Bool :=
  v.cell_line.isNone || v.cell_type.isNone || v.tissue.isNone || v.disease.isNone

/-- The fresh input built for one alternate name: every slot `"N/A"`
except the slot under retry. -/
def onlySlot (slot : Slot) (alt : String) : ExtractedOntologies :=
  let base : ExtractedOntologies :=
    { cell_line := some "N/A", cell_type := some "N/A",
      tissue := some "N/A", disease := some "N/A" }
  match slot with
  | Slot.cell_line => { base with cell_line := some alt }
  | Slot.cell_type => { base with cell_type := some alt }
  | Slot.tissue => { base with tissue := some alt }
  | Slot.disease => { base with disease := some alt }

/-- The `for alt_name in alt_names` loop: accept the first alternate
whose single-slot waterfall result is truthy and stop. -/
def tryAlternates (score : String → String → ℚ)
    (cIdx eIdx uIdx cRIdx eRIdx uRIdx cFIdx eFIdx uFIdx : Index)
    (geo : String) (slot : Slot) : List String → Option (List Entry)
  | [] => Option.none
  | alt :: rest =>
    let result := process_ontology score cIdx eIdx uIdx cRIdx eRIdx uRIdx
      cFIdx eFIdx uFIdx { extracted_ontologies := onlySlot slot alt, geo := geo }
    match getVSlot result.slots slot with
    | some entries => some entries
    | Option.none => tryAlternates score cIdx eIdx uIdx cRIdx eRIdx uRIdx
        cFIdx eFIdx uFIdx geo slot rest

/-- One slot of the alternate-name retry loop of `verify_ontology`: only
slots whose extracted value is truthy, not `"N/A"`, and still unresolved
call the `generate_alternate_names` oracle; an oracle exception
propagates (the source has no handler inside the loop —
`generate_alternate_names` re-raises). -/
def verifySlotStep (score : String → String → ℚ)
    (cIdx eIdx uIdx cRIdx eRIdx uRIdx cFIdx eFIdx uFIdx : Index)
    (altNames : String → Except Unit (List String))
    (extracted : ExtractedOntologies) (geo : String)
    (acc : ValidatedSlots) (slot : Slot) : Except Unit ValidatedSlots :=
  match getSlot extracted slot with
  | Option.none => Except.ok acc
  | some s =>
    if s = "" ∨ s = "N/A" ∨ getVSlot acc slot ≠ Option.none then Except.ok acc
    else
      match altNames s with
      | Except.error e => Except.error e
      | Except.ok alts =>
        match tryAlternates score cIdx eIdx uIdx cRIdx eRIdx uRIdx cFIdx eFIdx
            uFIdx geo slot alts with
        | some entries => Except.ok (setVSlot acc slot (some entries))
        | Option.none => Except.ok acc

/-- The final per-slot collapse loop of `verify_ontology`: every
list-valued slot is replaced by its collapsed form; a `collapse` raise
propagates. -/
def collapseSlots : ValidatedSlots → List Slot → Except Unit ValidatedSlots
  | v, [] => Except.ok v
  | v, slot :: rest =>
    match getVSlot v slot with
    | Option.none => collapseSlots v rest
    | some entries =>
      match collapse_ontology_terms entries with
      | Except.error e => Except.error e
      | Except.ok collapsed => collapseSlots (setVSlot v slot (some collapsed)) rest

/-- The alternate-name loop over the four slots in order; an exception
raised at one slot aborts the remaining slots (no handler in the
source). -/
def verifySlotLoop (score : String → String → ℚ)
    (cIdx eIdx uIdx cRIdx eRIdx uRIdx cFIdx eFIdx uFIdx : Index)
    (altNames : String → Except Unit (List String))
    (extracted : ExtractedOntologies) (geo : String) :
    ValidatedSlots → List Slot → Except Unit ValidatedSlots
  | acc, [] => Except.ok acc
  | acc, slot :: rest =>
    match verifySlotStep score cIdx eIdx uIdx cRIdx eRIdx uRIdx cFIdx eFIdx uFIdx
        altNames extracted geo acc slot with
    | Except.error e => Except.error e
    | Except.ok acc₂ => verifySlotLoop score cIdx eIdx uIdx cRIdx eRIdx uRIdx
        cFIdx eFIdx uFIdx altNames extracted geo acc₂ rest

/-- Embeds `verify_ontology`: run the waterfall; if complete, return it;
otherwise run the alternate-name retry round per still-unresolved slot,
then collapse every multi-entry slot.  Exceptions propagate to the
caller. -/
def verify_ontology (score : String → String → ℚ)
    (cIdx eIdx uIdx cRIdx eRIdx uRIdx cFIdx eFIdx uFIdx : Index)
    (altNames : String → Except Unit (List String))
    (input : InputOntology) : Except Unit ProcessedOntology :=
  let validated := process_ontology score cIdx eIdx uIdx cRIdx eRIdx uRIdx
    cFIdx eFIdx uFIdx input
  if is_incomplete validated.slots = false then Except.ok validated
  else
    match verifySlotLoop score cIdx eIdx uIdx cRIdx eRIdx uRIdx cFIdx eFIdx uFIdx
        altNames validated.extracted validated.geo validated.slots SLOTS with
    | Except.error e => Except.error e
    | Except.ok completed =>
      match collapseSlots completed SLOTS with
      | Except.error e => Except.error e
      | Except.ok final =>
        Except.ok { slots := final, geo := validated.geo,
                    extracted := validated.extracted }

/-- Embeds `extract_verify_ontology`: a raising extraction oracle or a
raising `verify_ontology` is caught and turns the WHOLE per-identifier
ontology result into `None`. -/
def extract_verify_ontology (score : String → String → ℚ)
    (cIdx eIdx uIdx cRIdx eRIdx uRIdx cFIdx eFIdx uFIdx : Index)
    (altNames : String → Except Unit (List String))
    (extractOracle : Except Unit ExtractedOntologies)
    (gsm_id : String) : Option ProcessedOntology :=
  match extractOracle with
  | Except.error _ => Option.none
  | Except.ok eo =>
    match verify_ontology score cIdx eIdx uIdx cRIdx eRIdx uRIdx cFIdx eFIdx uFIdx
        altNames { extracted_ontologies := eo, geo := gsm_id } with
    | Except.error _ => Option.none
    | Except.ok v => some v

/-- The values an ontology slot of the output record can hold; a
distinguished `null` constructor exists so that "emitted as `null`" is
expressible. -/
inductive OutVal where
  | null : OutVal
  | strVal : String → OutVal
  | entriesVal : List Entry → OutVal
deriving DecidableEq, Repr

/-- The `ontology.extracted_ontologies` block of the output record. -/
structure OntologyBlock where
  cell_line : OutVal
  cell_type : OutVal
  tissue : OutVal
  disease : OutVal
deriving DecidableEq, Repr

/-- The per-identifier output record of `_format_output_structure`. -/
structure OutputRecord where
  gsm_id : String
  factor : Option String
  ontology : Option OntologyBlock
deriving DecidableEq, Repr

/-- Slot projection of an output ontology block. -/
def getOutSlot (b : OntologyBlock) : Slot → OutVal
  | Slot.cell_line => b.cell_line
  | Slot.cell_type => b.cell_type
  | Slot.tissue => b.tissue
  | Slot.disease => b.disease

/-- One slot of `_format_output_structure`: the stored value when it is
not `None`, otherwise the literal string `"N/A"`. -/
def formatSlot (v : Option (List Entry)) : OutVal :=
  match v with
  | some l => OutVal.entriesVal l
  | Option.none => OutVal.strVal "N/A"

/-- Embeds `_format_output_structure` (the slot-relevant part: the
validated ontology record's four slot keys are read with `.get`). -/
def _format_output_structure (gsm_id : String) (extracted_factor : Option String)
    (extracted_ontology : Option ValidatedSlots) : OutputRecord :=
  { gsm_id := gsm_id
    factor := extracted_factor
    ontology := extracted_ontology.map (fun eo =>
      { cell_line := formatSlot eo.cell_line
        cell_type := formatSlot eo.cell_type
        tissue := formatSlot eo.tissue
        disease := formatSlot eo.disease }) }

/-! ## Concrete fixture for the Cellosaurus-consultation check (C1) -/

/-- A Cellosaurus-style index entry for the cell line HeLa, in the shape
`build_index_cellosaurus` produces. -/
def helaEntry : Entry :=
  [("ontology_accession", Val.str "CVCL_0030"),
   ("ontology_type", Val.str "Cellosaurus"),
   ("term", Val.str "HeLa"),
   ("term_identity", Val.str "cell_line"),
   ("official_term", Val.str "HeLa")]

/-- A Cellosaurus index filing `helaEntry` under `"hela"` — the
normalized key of `"HeLa"` in all three variants (exact, reduced and
fuzzy normalization all give `"hela"`). -/
def helaIndex : Index := [("hela", [helaEntry])]

/-- A candidate object whose `cell_line` is `"HeLa"` and whose other
slots are `"N/A"`. -/
def helaInput : InputOntology where
  extracted_ontologies :=
    { cell_line := some "HeLa"
      cell_type := some "N/A"
      tissue := some "N/A"
      disease := some "N/A" }
  geo := "GSM1"

/-! ## FactorResolver (`match_human_gene`, `validate_binding_protein`,
`verify_factor`)

The gene table is a list of rows with `Symbol` and `Synonyms` columns;
the TF reference is its set of symbols; the chromatin-remodeler
reference is a dict of symbol and comma-separated-synonym lists.  The
LLM-backed pickers, the synonym generator, and the recheck oracle are
function parameters returning `Except Unit` (an `error` is a raised
exception at the call site).
-/

/-- A row of the `gene_info.csv` table (the two columns the resolver
reads). -/
structure GeneRow where
  Symbol : String
  Synonyms : String
deriving DecidableEq, Repr

/-- Splits on a separator character keeping empty pieces, in the manner
of Python's `str.split(sep)`. -/
def splitOnChar (sep : Char) : List Char → List (List Char)
  | [] => [[]]
  | c :: rest =>
    if c = sep then [] :: splitOnChar sep rest
    else
      match splitOnChar sep rest with
      | [] => [[c]]
      | w :: ws => (c :: w) :: ws

/-- Embeds `match_human_gene`: the rows whose cleaned `Symbol` equals
the cleaned factor or whose cleaned `|`-separated synonyms contain it. -/
def match_human_gene (df : List GeneRow) (factor : String) : List GeneRow :=
  let cleaned := clean_input factor
  df.filter (fun row =>
    clean_input row.Symbol = cleaned
      || ((splitOnChar '|' row.Synonyms.data).map
            (fun w => clean_input (String.mk w))).contains cleaned)

/-- Embeds `validate_transcription_factor`: keep the rows whose raw
`Symbol` is in the TF reference set. -/
def validate_transcription_factor (matching : List GeneRow)
    (tf_symbols : List String) : List GeneRow :=
  matching.filter (fun row => tf_symbols.contains row.Symbol)

/-- The chromatin-remodeler reference: the `'chromatin remodeling'`
symbol list and the non-null comma-separated `'synonyms'` strings. -/
structure ChromatinDB where
  remodeling : List String
  synonyms : List String
deriving DecidableEq, Repr

/-- The `valid_symbols` set of `validate_chromatin_remodelers`: cleaned
symbols plus cleaned comma-split synonyms (the `.strip()` of the source
is subsumed by `clean_input`, which drops all whitespace). -/
def cr_valid_symbols (db : ChromatinDB) : List String :=
  db.remodeling.map clean_input
    ++ (db.synonyms.map (fun syns =>
          (splitOnChar ',' syns.data).map (fun w => clean_input (String.mk w)))).flatten

/-- Embeds `validate_chromatin_remodelers`: keep the rows whose cleaned
`Symbol` is in `valid_symbols`. -/
def validate_chromatin_remodelers (matching : List GeneRow)
    (db : ChromatinDB) : List GeneRow :=
  matching.filter (fun row => (cr_valid_symbols db).contains (clean_input row.Symbol))

/-- The values `verify_factor` can return, mirroring the `pd.Series`
variants the source builds: the initial empty series, the
`pd.Series("none")` placeholder of `validate_binding_protein`, the
histone short-circuit `pd.Series({"Symbol": factor})`, and a matched
gene row. -/
inductive FactorResult where
  | empty : FactorResult
  | noneStr : FactorResult
  | symbolOnly : String → FactorResult
  | row : GeneRow → FactorResult
deriving DecidableEq, Repr

/-- Embeds `validate_binding_protein`: one match is accepted outright;
several matches (parameter `ms`; `matches` is reserved in Lean) go
through the TF filter (picker on a tie), then the CR
filter (picker on a tie), then the histone re-check of the original
candidate, then the unfiltered gene picker compared after
normalization.  A raised picker is caught by the surrounding handlers
and leaves the attempt unsatisfied with the `pd.Series("none")`
placeholder. -/
def validate_binding_protein (factor : String) (ms : List GeneRow)
    (tf_symbols : List String) (cr_db : ChromatinDB)
    (tfPicker crPicker genePicker : List GeneRow → Except Unit String) :
    FactorResult × Bool :=
  match ms with
  | [] => (FactorResult.noneStr, false)
  | [m] => (FactorResult.row m, true)
  | _ :: _ :: _ =>
    match validate_transcription_factor ms tf_symbols with
    | [m] => (FactorResult.row m, true)
    | t₁ :: t₂ :: ts =>
      match tfPicker (t₁ :: t₂ :: ts) with
      | Except.error _ => (FactorResult.noneStr, false)
      | Except.ok sel =>
        match (t₁ :: t₂ :: ts).filter (fun r => r.Symbol = sel) with
        | [] => (FactorResult.noneStr, false)
        | m :: _ => (FactorResult.row m, true)
    | [] =>
      match validate_chromatin_remodelers ms cr_db with
      | [m] => (FactorResult.row m, true)
      | c₁ :: c₂ :: cs =>
        match crPicker (c₁ :: c₂ :: cs) with
        | Except.error _ => (FactorResult.noneStr, false)
        | Except.ok sel =>
          match (c₁ :: c₂ :: cs).filter (fun r => r.Symbol = sel) with
          | [] => (FactorResult.noneStr, false)
          | m :: _ => (FactorResult.row m, true)
      | [] =>
        if validate_histone_mark factor then (FactorResult.symbolOnly factor, true)
        else
          match genePicker ms with
          | Except.error _ => (FactorResult.noneStr, false)
          | Except.ok sel =>
            match ms.filter (fun r => clean_input r.Symbol = clean_input sel) with
            | [] => (FactorResult.noneStr, false)
            | m :: _ => (FactorResult.row m, true)

/-- The `for synonym in synonyms` retry of `verify_factor`: first
satisfying synonym wins; a synonym with no gene matches leaves the state
unchanged. -/
def synonymFold (genes : List GeneRow) (tf_symbols : List String)
    (cr_db : ChromatinDB)
    (tfPicker crPicker genePicker : List GeneRow → Except Unit String) :
    List String → FactorResult × Bool → FactorResult × Bool
  | [], acc => acc
  | syn :: rest, (r, s) =>
    if s then (r, s)
    else
      let syn_matches := match_human_gene genes syn
      if syn_matches.isEmpty then
        synonymFold genes tf_symbols cr_db tfPicker crPicker genePicker rest (r, s)
      else
        synonymFold genes tf_symbols cr_db tfPicker crPicker genePicker rest
          (validate_binding_protein syn syn_matches tf_symbols cr_db tfPicker
            crPicker genePicker)

/-- The gene-table lookup phase of one `verify_factor` round: the
lookup is skipped for the literal `"None"`, and `validate_binding_protein`
runs only when matches exist, otherwise `result` is carried unchanged
with `satisfied = False`. -/
def vfStep1 (genes : List GeneRow) (tf_symbols : List String)
    (cr_db : ChromatinDB)
    (tfPicker crPicker genePicker : List GeneRow → Except Unit String)
    (result : FactorResult) (factor : String) : FactorResult × Bool :=
  let ms := if factor = "None" then [] else match_human_gene genes factor
  if ms.isEmpty then (result, false)
  else validate_binding_protein factor ms tf_symbols cr_db tfPicker
    crPicker genePicker

/-- One `verify_factor` round up to (and including) the synonym retry:
after `vfStep1`, if still unsatisfied and the candidate is not
`"None"`, each synonym produced by the `generate_synonyms` oracle is
retried in order (an oracle exception yields the empty synonym
list). -/
def vfStep2 (genes : List GeneRow) (tf_symbols : List String)
    (cr_db : ChromatinDB)
    (tfPicker crPicker genePicker : List GeneRow → Except Unit String)
    (synOracle : String → Except Unit (List String))
    (result : FactorResult) (factor : String) : FactorResult × Bool :=
  let step₁ := vfStep1 genes tf_symbols cr_db tfPicker crPicker genePicker
    result factor
  if step₁.2 then step₁
  else if factor = "None" then step₁
  else
    let syns := match synOracle factor with
      | Except.error _ => []
      | Except.ok l => l
    synonymFold genes tf_symbols cr_db tfPicker crPicker genePicker syns step₁

/-- The `while not satisfied and loop_count < max_loops` loop of
`verify_factor`, with the remaining round count as the structural
argument and, as observational instrumentation, the list of argument
lists passed to the `factor_recheck` oracle (one per call, in call
order).  Per round: append the candidate to `failed_factors`; return at
once on a histone match; otherwise run the lookup, disambiguation and
synonym phases (`vfStep2`); on failure call `factor_recheck` with the
accumulated failures — its exception breaks the loop, its answer
becomes the next round's candidate. -/
def verify_factor_loop (genes : List GeneRow) (tf_symbols : List String)
    (cr_db : ChromatinDB)
    (tfPicker crPicker genePicker : List GeneRow → Except Unit String)
    (synOracle : String → Except Unit (List String))
    (recheckOracle : List String → Except Unit String) :
    Nat → String → List String → FactorResult → List (List String) →
    FactorResult × List (List String)
  | 0, _, _, result, trace => (result, trace)
  | Nat.succ n, factor, failed, result, trace =>
    let failed₂ := failed ++ [factor]
    if validate_histone_mark factor then (FactorResult.symbolOnly factor, trace)
    else
      let step₂ := vfStep2 genes tf_symbols cr_db tfPicker crPicker genePicker
        synOracle result factor
      if step₂.2 then (step₂.1, trace)
      else
        match recheckOracle failed₂ with
        | Except.error _ => (step₂.1, trace ++ [failed₂])
        | Except.ok newFactor =>
          verify_factor_loop genes tf_symbols cr_db tfPicker crPicker genePicker
            synOracle recheckOracle n newFactor failed₂ step₂.1 (trace ++ [failed₂])

/-- Embeds `verify_factor` (`max_loops = 3`, empty initial result and
failure list), paired with the recorded `factor_recheck` call
arguments. -/
def verify_factor (genes : List GeneRow) (tf_symbols : List String)
    (cr_db : ChromatinDB)
    (tfPicker crPicker genePicker : List GeneRow → Except Unit String)
    (synOracle : String → Except Unit (List String))
    (recheckOracle : List String → Except Unit String)
    (factor : String) : FactorResult × List (List String) :=
  verify_factor_loop genes tf_symbols cr_db tfPicker crPicker genePicker synOracle
    recheckOracle 3 factor [] FactorResult.empty []

/-! ### C10: reduced index keys and reduced query keys coincide -/

theorem wordChar_not_ws {c : Char} (hw : isWordChar c = true) :
    c.isWhitespace = false := by
  rcases Bool.eq_false_or_eq_true c.isWhitespace with h | h
  · exfalso
    have hd : ((c = ' ' ∨ c = '\t') ∨ c = '\r') ∨ c = '\n' := by
      simpa [Char.isWhitespace, decide_eq_true_eq, Bool.or_eq_true] using h
    rcases hd with ((rfl | rfl) | rfl) | rfl <;> exact absurd hw (by decide)
  · exact h

theorem cleanChars_no_whitespace {c : Char} {cs : List Char}
    (h : c ∈ cleanChars cs) : c.isWhitespace = false := by
  unfold cleanChars at h
  exact wordChar_not_ws (List.mem_filter.mp h).2

theorem filter_not_ws_of_clean {w : List Char} (hw : ∃ cs, w = cleanChars cs) :
    w.filter (fun c => !c.isWhitespace) = w := by
  rcases hw with ⟨cs, rfl⟩
  apply List.filter_eq_self.mpr
  intro c hc
  simp [cleanChars_no_whitespace hc]

theorem joinSep_space_filter (ws : List (List Char))
    (h : ∀ w ∈ ws, ∃ cs, w = cleanChars cs) :
    (joinSep [' '] ws).filter (fun c => !c.isWhitespace) = joinSep [] ws := by
  induction ws with
  | nil => simp [joinSep]
  | cons w ws ih =>
    cases ws with
    | nil =>
      simp only [joinSep]
      exact filter_not_ws_of_clean (h w (by simp))
    | cons w₂ ws₂ =>
      have hjoin : joinSep [' '] (w :: w₂ :: ws₂)
          = w ++ [' '] ++ joinSep [' '] (w₂ :: ws₂) := rfl
      have hjoin₀ : joinSep ([] : List Char) (w :: w₂ :: ws₂)
          = w ++ [] ++ joinSep [] (w₂ :: ws₂) := rfl
      rw [hjoin, hjoin₀, List.filter_append, List.filter_append]
      rw [filter_not_ws_of_clean (h w (by simp))]
      rw [ih (fun w' hw' => h w' (by simp [hw']))]
      simp

/-- C10 — The index-side and query-side reduced normalizations agree: for
every input string and both values of the stop-word flag, applying
`processor.remove_spaces` to the key produced by `processor.process_string`
(the non-fuzzy index key construction of `build_index_efo`,
`build_index_uberon`, `build_index_cellosaurus`) yields exactly the key
produced by `parser_extractor.process_string`, so reduced-index keys and
reduced-query keys coincide. -/
theorem processor_parser_keys_agree (s : Option String) (remove : Bool) :
    (processor.process_string s remove).map processor.remove_spaces
      = parser_extractor.process_string s remove := by
  cases s with
  | none => rfl
  | some str =>
    simp only [processor.process_string, parser_extractor.process_string]
    by_cases hstr : str = ""
    · rw [if_pos hstr, if_pos hstr]; rfl
    · rw [if_neg hstr, if_neg hstr]
      have hkey : processor.remove_spaces
            (String.mk (joinSep [' '] (processedWords str remove)))
          = String.mk (joinSep [] (processedWords str remove)) := by
        unfold processor.remove_spaces
        congr 1
        apply joinSep_space_filter
        intro w hw
        unfold processedWords at hw
        have hw' : w ∈ (splitWs str.data).map cleanChars := List.mem_of_mem_filter hw
        rcases List.mem_map.mp hw' with ⟨cs, _, rfl⟩
        exact ⟨cs, rfl⟩
      exact congrArg some hkey

/-! ### Histone grammar: helper lemmas -/

theorem isPref_append_self (p t : List Char) : isPref p (p ++ t) = true := by
  induction p with
  | nil => rfl
  | cons a as ih => simp [isPref, ih]

theorem isPref_take {p l : List Char} (h : isPref p l = true) :
    l.take p.length = p := by
  induction p generalizing l with
  | nil => simp
  | cons a as ih =>
    cases l with
    | nil => simp [isPref] at h
    | cons b bs =>
      simp only [isPref, Bool.and_eq_true, decide_eq_true_eq] at h
      rcases h with ⟨rfl, h2⟩
      simp [List.take, ih h2]

theorem isPref_length_le {p l : List Char} (h : isPref p l = true) :
    p.length ≤ l.length := by
  induction p generalizing l with
  | nil => simp
  | cons a as ih =>
    cases l with
    | nil => simp [isPref] at h
    | cons b bs =>
      simp only [isPref, Bool.and_eq_true, decide_eq_true_eq] at h
      simpa using ih h.2

theorem isPref_eq_of_len {p q l : List Char} (hp : isPref p l = true)
    (hq : isPref q l = true) (h : p.length = q.length) : p = q := by
  have h1 := isPref_take hp
  have h2 := isPref_take hq
  rw [← h1, ← h2, h]

theorem isPref_of_le {p q l : List Char} (hp : isPref p l = true)
    (hq : isPref q l = true) (h : p.length ≤ q.length) : isPref p q = true := by
  induction p generalizing q l with
  | nil => rfl
  | cons a as ih =>
    cases q with
    | nil => simp at h
    | cons b bs =>
      cases l with
      | nil => simp [isPref] at hp
      | cons x xs =>
        simp only [isPref, Bool.and_eq_true, decide_eq_true_eq] at hp hq ⊢
        rcases hp with ⟨rfl, hp2⟩
        rcases hq with ⟨rfl, hq2⟩
        exact ⟨rfl, ih hp2 hq2 (by simpa using h)⟩

theorem isPref_append_drop {p l : List Char} (h : isPref p l = true) :
    l = p ++ l.drop p.length := by
  conv_lhs => rw [← List.take_append_drop p.length l]
  rw [isPref_take h]

theorem mem_insertLenDesc {x v : List Char} {ws : List (List Char)} :
    x ∈ insertLenDesc v ws ↔ x = v ∨ x ∈ ws := by
  induction ws with
  | nil => simp [insertLenDesc]
  | cons w ws ih =>
    by_cases h : w.length < v.length
    · simp [insertLenDesc, h]
    · simp [insertLenDesc, h, ih]
      tauto

theorem mem_sortLenDesc {x : List Char} {l : List (List Char)} :
    x ∈ sortLenDesc l ↔ x ∈ l := by
  induction l with
  | nil => simp [sortLenDesc]
  | cons w ws ih =>
    simp only [sortLenDesc, List.foldr] at ih ⊢
    rw [mem_insertLenDesc, ih]
    simp

theorem sorted_insertLenDesc {v : List Char} {ws : List (List Char)}
    (h : ws.Pairwise (fun a b => b.length ≤ a.length)) :
    (insertLenDesc v ws).Pairwise (fun a b => b.length ≤ a.length) := by
  induction ws with
  | nil => simp [insertLenDesc]
  | cons w ws ih =>
    rcases List.pairwise_cons.mp h with ⟨hw, hws⟩
    by_cases hlt : w.length < v.length
    · rw [insertLenDesc, if_pos hlt]
      refine List.pairwise_cons.mpr ⟨?_, h⟩
      intro x hx
      rcases List.mem_cons.mp hx with rfl | hx
      · exact Nat.le_of_lt hlt
      · exact Nat.le_trans (hw x hx) (Nat.le_of_lt hlt)
    · rw [insertLenDesc, if_neg hlt]
      refine List.pairwise_cons.mpr ⟨?_, ih hws⟩
      intro x hx
      rcases mem_insertLenDesc.mp hx with rfl | hx
      · exact Nat.le_of_not_lt hlt
      · exact hw x hx

theorem sorted_sortLenDesc (l : List (List Char)) :
    (sortLenDesc l).Pairwise (fun a b => b.length ≤ a.length) := by
  induction l with
  | nil => simp [sortLenDesc]
  | cons w ws ih => exact sorted_insertLenDesc ih

theorem find?_max_len {l : List (List Char)} {cs v : List Char}
    (hs : l.Pairwise (fun a b => b.length ≤ a.length))
    (h : l.find? (fun w => isPref w cs) = some v) :
    ∀ w ∈ l, isPref w cs = true → w.length ≤ v.length := by
  induction l with
  | nil => simp at h
  | cons a as ih =>
    rcases List.pairwise_cons.mp hs with ⟨ha, has⟩
    intro w hw hpw
    by_cases hpa : isPref a cs = true
    · have h₂ : (a :: as).find? (fun w => isPref w cs) = some a :=
        List.find?_cons_of_pos _ hpa
      have hva : v = a := by
        rw [h] at h₂
        exact Option.some.inj h₂
      subst hva
      rcases List.mem_cons.mp hw with rfl | hw
      · exact Nat.le_refl _
      · exact ha w hw
    · have h₂ : (a :: as).find? (fun w => isPref w cs)
          = as.find? (fun w => isPref w cs) :=
        List.find?_cons_of_neg _ (by simpa using hpa)
      rw [h₂] at h
      rcases List.mem_cons.mp hw with rfl | hw
      · exact absurd hpw hpa
      · exact ih has h w hw hpw

theorem find?_eq_some_of_unique {α : Type} {p : α → Bool} {l : List α} {x : α}
    (hx : x ∈ l) (hpx : p x = true) (huniq : ∀ y ∈ l, p y = true → y = x) :
    l.find? p = some x := by
  induction l with
  | nil => simp at hx
  | cons a as ih =>
    by_cases hpa : p a = true
    · have : a = x := huniq a (by simp) hpa
      subst this
      exact List.find?_cons_of_pos _ hpa
    · rw [List.find?_cons_of_neg _ (by simpa using hpa)]
      rcases List.mem_cons.mp hx with rfl | hx'
      · exact absurd hpx hpa
      · exact ih hx' (fun y hy hpy => huniq y (by simp [hy]) hpy)

theorem variantOf_some_iff {cs v : List Char} :
    variantOf cs = some v ↔ LongestVariant cs v := by
  constructor
  · intro h
    have hmem : v ∈ sortLenDesc (HISTONE_VARIANTS.map String.data) :=
      List.mem_of_find?_eq_some h
    have hpref : isPref v cs = true := by
      have := List.find?_some h
      simpa using this
    refine ⟨mem_sortLenDesc.mp hmem, hpref, ?_⟩
    intro w hw hpw
    exact find?_max_len (sorted_sortLenDesc _) h w (mem_sortLenDesc.mpr hw) hpw
  · rintro ⟨hmem, hpref, hmax⟩
    cases hfind : variantOf cs with
    | none =>
      exfalso
      have := List.find?_eq_none.mp hfind v (mem_sortLenDesc.mpr hmem)
      simp [hpref] at this
    | some u =>
      have humem : u ∈ sortLenDesc (HISTONE_VARIANTS.map String.data) :=
        List.mem_of_find?_eq_some hfind
      have hupref : isPref u cs = true := by
        have := List.find?_some hfind
        simpa using this
      have hle : u.length ≤ v.length := hmax u (mem_sortLenDesc.mp humem) hupref
      have hge : v.length ≤ u.length :=
        find?_max_len (sorted_sortLenDesc _) hfind v (mem_sortLenDesc.mpr hmem) hpref
      have : u = v := isPref_eq_of_len hupref hpref (Nat.le_antisymm hle hge)
      rw [this]

theorem digit_toLower {d : Char} (h : d.isDigit = true) : d.toLower = d := by
  have h' : d.val ≥ 48 ∧ d.val ≤ 57 := by
    simpa [Char.isDigit, Bool.and_eq_true, decide_eq_true_eq] using h
  have h2 : d.val.toNat ≤ (57 : UInt32).toNat := h'.2
  have h3 : (57 : UInt32).toNat = 57 := rfl
  unfold Char.toLower
  rw [if_neg]
  rintro ⟨h65, -⟩
  have : Char.toNat d = d.val.toNat := rfl
  omega

theorem takeWhile_append_eq {P : Char → Bool} {pos r : List Char}
    (hd : ∀ d ∈ pos, P d = true)
    (hh : ∀ x ∈ r.head?, P x = false) :
    (pos ++ r).takeWhile P = pos := by
  induction pos with
  | nil =>
    cases r with
    | nil => rfl
    | cons x xs =>
      have hx : P x = false := hh x rfl
      simp [List.takeWhile, hx]
  | cons a as ih =>
    have ha : P a = true := hd a (by simp)
    have ih' := ih (fun d hdm => hd d (by simp [hdm]))
    simp only [List.cons_append, List.takeWhile, ha]
    show a :: (as ++ r).takeWhile P = a :: as
    rw [ih']

theorem drop_takeWhile_length (P : Char → Bool) (l : List Char) :
    l.drop (l.takeWhile P).length = l.dropWhile P := by
  induction l with
  | nil => rfl
  | cons a as ih =>
    by_cases ha : P a = true
    · simp [List.takeWhile, List.dropWhile, ha, ih]
    · have ha' : P a = false := by simpa using ha
      simp [List.takeWhile, List.dropWhile, ha']

theorem head?_dropWhile_false (P : Char → Bool) (l : List Char) :
    ∀ x ∈ (l.dropWhile P).head?, P x = false := by
  induction l with
  | nil => intro x hx; simp at hx
  | cons a as ih =>
    by_cases ha : P a = true
    · simpa [List.dropWhile, ha] using ih
    · have ha' : P a = false := by simpa using ha
      intro x hx
      simp [List.dropWhile, ha'] at hx
      exact hx ▸ ha'

/-- Table fact (checked by computation): every modification code in
`VALID_PTMS` is nonempty and starts with a non-digit character. -/
theorem ptm_table_heads :
    ∀ pr ∈ VALID_PTMS, ∀ p ∈ pr.2,
      p.data ≠ [] ∧ ∀ d ∈ p.data.head?, d.isDigit = false := by
  decide

/-- Table fact (checked by computation): within one residue's list of
modification codes, no code is a prefix of another; hence the
longest-match lookup is in fact a unique match. -/
theorem ptm_table_no_pref :
    ∀ pr ∈ VALID_PTMS, ∀ p ∈ pr.2, ∀ q ∈ pr.2,
      isPref p.data q.data = true → p = q := by
  decide

theorem mem_of_lookup_eq_some {l : List (Char × List String)} {a : Char}
    {b : List String} (h : l.lookup a = some b) : (a, b) ∈ l := by
  induction l with
  | nil => simp [List.lookup] at h
  | cons p ps ih =>
    rcases p with ⟨k, v⟩
    by_cases hk : (a == k) = true
    · simp only [List.lookup, hk] at h
      have hka : a = k := eq_of_beq hk
      have hvb : v = b := Option.some.inj h
      subst hka
      subst hvb
      exact List.mem_cons_self _ _
    · have hk' : (a == k) = false := by simpa using hk
      simp only [List.lookup, hk'] at h
      exact List.mem_cons_of_mem _ (ih h)

theorem ptm_data_nonempty {c : Char} {ptms : List String} {ptm : String}
    (hres : ptmsFor c = some ptms) (hmem : ptm ∈ ptms) : ptm.data ≠ [] :=
  (ptm_table_heads _ (mem_of_lookup_eq_some hres) ptm hmem).1

theorem ptm_head_nondigit {c : Char} {ptms : List String} {ptm : String}
    (hres : ptmsFor c = some ptms) (hmem : ptm ∈ ptms) :
    ∀ d ∈ ptm.data.head?, d.isDigit = false :=
  (ptm_table_heads _ (mem_of_lookup_eq_some hres) ptm hmem).2

theorem ptm_unique {c : Char} {ptms : List String} {p q : String}
    (hres : ptmsFor c = some ptms) (hp : p ∈ ptms) (hq : q ∈ ptms)
    (hpref : isPref p.data q.data = true) : p = q :=
  ptm_table_no_pref _ (mem_of_lookup_eq_some hres) p hp q hq hpref

theorem ptmRaw_shape {ptmRaw : List Char} {c : Char} {ptms : List String}
    {ptm : String} (hres : ptmsFor c = some ptms) (hmem : ptm ∈ ptms)
    (hraw : ptmRaw.map Char.toLower = ptm.data) :
    ∃ r₀ rs, ptmRaw = r₀ :: rs ∧ r₀.isDigit = false := by
  have hne : ptm.data ≠ [] := ptm_data_nonempty hres hmem
  cases hr : ptmRaw with
  | nil => rw [hr] at hraw; exact absurd hraw.symm hne
  | cons r₀ rs =>
    refine ⟨r₀, rs, rfl, ?_⟩
    rw [hr] at hraw
    have hhead : ptm.data.head? = some r₀.toLower := by
      rw [← hraw]; rfl
    have hnd : r₀.toLower.isDigit = false :=
      ptm_head_nondigit hres hmem _ (by rw [hhead]; rfl)
    by_contra hdig
    have hdig' : r₀.isDigit = true := by
      cases hb : r₀.isDigit
      · exact absurd hb hdig
      · rfl
    rw [digit_toLower hdig'] at hnd
    rw [hdig'] at hnd
    cases hnd

theorem findPtm_eq_some {c : Char} {ptms : List String} {ptm : String}
    {ptmRaw tail : List Char}
    (hres : ptmsFor c = some ptms) (hmem : ptm ∈ ptms)
    (hraw : ptmRaw.map Char.toLower = ptm.data) :
    findPtm ptms (ptmRaw ++ tail) = some ptm.data := by
  have hlow : (ptmRaw ++ tail).map Char.toLower
      = ptm.data ++ tail.map Char.toLower := by
    rw [List.map_append, hraw]
  unfold findPtm
  apply find?_eq_some_of_unique
  · exact mem_sortLenDesc.mpr (List.mem_map.mpr ⟨ptm, hmem, rfl⟩)
  · rw [hlow]; exact isPref_append_self _ _
  · intro y hy hpy
    rcases List.mem_map.mp (mem_sortLenDesc.mp hy) with ⟨q, hq, rfl⟩
    rw [hlow] at hpy
    have hpx : isPref ptm.data (ptm.data ++ tail.map Char.toLower) = true :=
      isPref_append_self _ _
    rcases Nat.le_total q.data.length ptm.data.length with hle | hle
    · have : isPref q.data ptm.data = true := isPref_of_le hpy hpx hle
      rw [ptm_unique hres hq hmem this]
    · have : isPref ptm.data q.data = true := isPref_of_le hpx hpy hle
      rw [ptm_unique hres hmem hq this]

theorem groupsGo_of_groups {cs : List Char} (h : HistoneGroups cs) :
    ∀ fuel, cs.length ≤ fuel → groupsGo fuel cs = true := by
  induction h with
  | nil => intro fuel _; cases fuel <;> rfl
  | noSuffix c pos ptmRaw tail ptms ptm hres hpos hdig hmem hraw hns htail ih =>
    intro fuel hlen
    cases fuel with
    | zero => simp at hlen
    | succ f =>
      rcases ptmRaw_shape hres hmem hraw with ⟨r₀, rs, hshape, hr₀⟩
      have hassoc : pos ++ ptmRaw ++ tail = pos ++ (ptmRaw ++ tail) :=
        List.append_assoc _ _ _
      have hTW : (pos ++ (ptmRaw ++ tail)).takeWhile Char.isDigit = pos := by
        apply takeWhile_append_eq hdig
        intro x hx
        rw [hshape] at hx
        simp only [List.cons_append, List.head?_cons, Option.mem_def,
          Option.some.injEq] at hx
        rw [← hx]; exact hr₀
      have hPE : pos.isEmpty = false := by
        cases pos with
        | nil => exact absurd rfl hpos
        | cons a as => rfl
      have hD1 : (pos ++ (ptmRaw ++ tail)).drop pos.length = ptmRaw ++ tail :=
        List.drop_left _ _
      have hFP : findPtm ptms (ptmRaw ++ tail) = some ptm.data :=
        findPtm_eq_some hres hmem hraw
      have hlenraw : ptmRaw.length = ptm.data.length := by
        rw [← hraw, List.length_map]
      have hD2 : (ptmRaw ++ tail).drop ptm.data.length = tail := by
        rw [← hlenraw]; exact List.drop_left _ _
      rw [hassoc]
      cases tail with
      | nil =>
        simp only [groupsGo, hres, hTW, hPE, hD1, hFP, hD2, Bool.false_eq_true,
          if_false]
      | cons d t₂ =>
        have hd : (d = 's' || d = 'a') = false := by
          simp only [headNotSym] at hns
          simp only [Bool.or_eq_false_iff, decide_eq_false_iff_not]
          exact ⟨fun h1 => hns (Or.inl h1), fun h2 => hns (Or.inr h2)⟩
        have hrec : groupsGo f (d :: t₂) = true := by
          apply ih
          have hlen' : (c :: (pos ++ ptmRaw ++ (d :: t₂))).length ≤ f + 1 := hlen
          simp only [List.length_cons, List.length_append] at hlen' ⊢
          omega
        simp only [groupsGo, hres, hTW, hPE, hD1, hFP, hD2, hd, hrec,
          Bool.false_eq_true, if_false]
  | withSuffix c pos ptmRaw tail ptms ptm d hres hpos hdig hmem hraw hd htail ih =>
    intro fuel hlen
    cases fuel with
    | zero => simp at hlen
    | succ f =>
      rcases ptmRaw_shape hres hmem hraw with ⟨r₀, rs, hshape, hr₀⟩
      have hassoc : pos ++ ptmRaw ++ d :: tail = pos ++ (ptmRaw ++ d :: tail) :=
        List.append_assoc _ _ _
      have hTW : (pos ++ (ptmRaw ++ d :: tail)).takeWhile Char.isDigit = pos := by
        apply takeWhile_append_eq hdig
        intro x hx
        rw [hshape] at hx
        simp only [List.cons_append, List.head?_cons, Option.mem_def,
          Option.some.injEq] at hx
        rw [← hx]; exact hr₀
      have hPE : pos.isEmpty = false := by
        cases pos with
        | nil => exact absurd rfl hpos
        | cons a as => rfl
      have hD1 : (pos ++ (ptmRaw ++ d :: tail)).drop pos.length
          = ptmRaw ++ d :: tail := List.drop_left _ _
      have hFP : findPtm ptms (ptmRaw ++ d :: tail) = some ptm.data :=
        findPtm_eq_some hres hmem hraw
      have hlenraw : ptmRaw.length = ptm.data.length := by
        rw [← hraw, List.length_map]
      have hD2 : (ptmRaw ++ d :: tail).drop ptm.data.length = d :: tail := by
        rw [← hlenraw]; exact List.drop_left _ _
      have hsym : (d = 's' || d = 'a') = true := by
        rcases hd with rfl | rfl <;> rfl
      have hrec : groupsGo f tail = true := by
        apply ih
        have hlen' : (c :: (pos ++ ptmRaw ++ d :: tail)).length ≤ f + 1 := hlen
        simp only [List.length_cons, List.length_append] at hlen' ⊢
        omega
      rw [hassoc]
      simp only [groupsGo, hres, hTW, hPE, hD1, hFP, hD2, hsym, hrec,
        Bool.false_eq_true, if_false, if_true]

theorem groups_of_groupsGo : ∀ fuel {cs : List Char},
    groupsGo fuel cs = true → HistoneGroups cs := by
  intro fuel
  induction fuel with
  | zero =>
    intro cs h
    cases cs with
    | nil => exact HistoneGroups.nil
    | cons c rest => simp [groupsGo] at h
  | succ f ih =>
    intro cs h
    cases cs with
    | nil => exact HistoneGroups.nil
    | cons c rest =>
      cases hres : ptmsFor c.toUpper with
      | none => simp [groupsGo, hres] at h
      | some ptms =>
        simp only [groupsGo, hres] at h
        by_cases hPE : (rest.takeWhile Char.isDigit).isEmpty = true
        · rw [hPE] at h; simp at h
        · have hPE' : (rest.takeWhile Char.isDigit).isEmpty = false := by
            simpa using hPE
          rw [hPE'] at h
          simp only [Bool.false_eq_true, if_false] at h
          cases hFP : findPtm ptms (rest.drop (rest.takeWhile Char.isDigit).length) with
          | none => rw [hFP] at h; simp at h
          | some ptmChars =>
            rw [hFP] at h
            dsimp only at h
            -- names for the greedy pieces
            have hpos_dig : ∀ d ∈ rest.takeWhile Char.isDigit, d.isDigit = true :=
              fun d hd => List.mem_takeWhile_imp hd
            have hpos_ne : rest.takeWhile Char.isDigit ≠ [] := by
              intro hnil
              rw [hnil] at hPE'
              simp at hPE'
            have hsplit : rest = rest.takeWhile Char.isDigit
                ++ rest.drop (rest.takeWhile Char.isDigit).length := by
              rw [drop_takeWhile_length]
              exact (List.takeWhile_append_dropWhile _ _).symm
            -- the matched modification code comes from the residue's table
            have hmem' : ptmChars ∈ sortLenDesc (ptms.map String.data) :=
              List.mem_of_find?_eq_some hFP
            rcases List.mem_map.mp (mem_sortLenDesc.mp hmem') with ⟨ptm, hptm, rfl⟩
            have hpref : isPref ptm.data
                ((rest.drop (rest.takeWhile Char.isDigit).length).map Char.toLower)
                = true := by
              have := List.find?_some hFP
              simpa using this
            have hraw : ((rest.drop (rest.takeWhile Char.isDigit).length).take
                ptm.data.length).map Char.toLower = ptm.data := by
              rw [List.map_take]
              exact isPref_take hpref
            have hsplit₂ : rest.drop (rest.takeWhile Char.isDigit).length
                = (rest.drop (rest.takeWhile Char.isDigit).length).take ptm.data.length
                  ++ (rest.drop (rest.takeWhile Char.isDigit).length).drop
                    ptm.data.length :=
              (List.take_append_drop _ _).symm
            cases hrem : (rest.drop (rest.takeWhile Char.isDigit).length).drop
                ptm.data.length with
            | nil =>
              rw [hrem] at hsplit₂
              refine hsplit ▸ hsplit₂ ▸ ?_
              have := HistoneGroups.noSuffix c (rest.takeWhile Char.isDigit)
                ((rest.drop (rest.takeWhile Char.isDigit).length).take ptm.data.length)
                [] ptms ptm hres hpos_ne hpos_dig hptm hraw trivial HistoneGroups.nil
              simpa using this
            | cons d rest₄ =>
              rw [hrem] at h hsplit₂
              dsimp only at h
              by_cases hsym : (d = 's' || d = 'a') = true
              · rw [if_pos hsym] at h
                have htail : HistoneGroups rest₄ := ih h
                have hd : d = 's' ∨ d = 'a' := by
                  simpa [Bool.or_eq_true, decide_eq_true_eq] using hsym
                refine hsplit ▸ hsplit₂ ▸ ?_
                rw [← List.append_assoc]
                exact HistoneGroups.withSuffix c (rest.takeWhile Char.isDigit)
                  ((rest.drop (rest.takeWhile Char.isDigit).length).take ptm.data.length)
                  rest₄ ptms ptm d hres hpos_ne hpos_dig hptm hraw hd htail
              · rw [if_neg hsym] at h
                have htail : HistoneGroups (d :: rest₄) := ih h
                have hns : headNotSym (d :: rest₄) := by
                  simp only [headNotSym]
                  intro hcon
                  apply hsym
                  rcases hcon with rfl | rfl <;> simp
                refine hsplit ▸ hsplit₂ ▸ ?_
                rw [← List.append_assoc]
                exact HistoneGroups.noSuffix c (rest.takeWhile Char.isDigit)
                  ((rest.drop (rest.takeWhile Char.isDigit).length).take ptm.data.length)
                  (d :: rest₄) ptms ptm hres hpos_ne hpos_dig hptm hraw hns htail

theorem groupsGo_iff_groups {fuel : Nat} {cs : List Char} (hf : cs.length ≤ fuel) :
    groupsGo fuel cs = true ↔ HistoneGroups cs :=
  ⟨groups_of_groupsGo fuel, fun h => groupsGo_of_groups h fuel hf⟩

/-- C3 (amended) — `validate_histone_mark` accepts exactly the strings
consisting of a recognized histone variant name (matched by longest
prefix) followed by ZERO or more residue/position/modification groups —
a residue letter whose upper-case form is a key of `VALID_PTMS`, one or
more digits, an allowed modification code for that residue matched
case-insensitively (necessarily unique, hence the longest match), and an
optional single symmetry suffix `'s'`/`'a'` consumed greedily whenever
present — that together consume every remaining character.  The claim's
"one or more groups" is amended to "zero or more": a bare variant such as
`"H3"` is accepted (see the counterexample theorem). -/
theorem validate_histone_mark_spec (s : String) :
    validate_histone_mark s = true ↔ histoneMarkSpec s := by
  unfold validate_histone_mark histoneMarkSpec
  cases hv : variantOf s.data with
  | none =>
    constructor
    · intro h; cases h
    · rintro ⟨v, hlv, -⟩
      rw [variantOf_some_iff.mpr hlv] at hv
      cases hv
  | some variant =>
    have hb : (s.data.drop variant.length).length ≤ s.data.length := by
      rw [List.length_drop]
      omega
    rw [groupsGo_iff_groups hb]
    constructor
    · intro h
      exact ⟨variant, variantOf_some_iff.mp hv, h⟩
    · rintro ⟨v, hlv, hg⟩
      have hvv : variantOf s.data = some v := variantOf_some_iff.mpr hlv
      rw [hv] at hvv
      cases hvv
      exact hg

/-- C3 (counterexample) — the claim as stated is false: the string `"H3"`
is accepted by `validate_histone_mark` although it is a bare variant with
ZERO residue/position/modification groups, which the claim says is
rejected. -/
theorem validate_histone_mark_claim_false :
    validate_histone_mark "H3" = true ∧ ¬ histoneMarkSpecOnePlus "H3" := by
  constructor
  · decide
  · rintro ⟨v, hlv, hne, -⟩
    have h1 : variantOf (String.data "H3") = some v := variantOf_some_iff.mpr hlv
    have h2 : variantOf (String.data "H3") = some (String.data "H3") := by decide
    rw [h2] at h1
    have hv : String.data "H3" = v := Option.some.inj h2.symm ▸ Option.some.inj h1
    apply hne
    rw [← hv]
    decide

/-! ### C5: fuzzy tier keeps exactly the maximum-scoring keys -/

theorem fuzzyRunningMax_ge (score : String → String → ℚ) (term : String) :
    ∀ (l : List (String × List Entry)) (m : ℚ),
      m ≤ fuzzyRunningMax score term l m := by
  intro l
  induction l with
  | nil => intro m; exact le_refl m
  | cons kv rest ih =>
    intro m
    calc m ≤ max m (score term kv.1) := le_max_left _ _
    _ ≤ fuzzyRunningMax score term rest (max m (score term kv.1)) := ih _
    _ = fuzzyRunningMax score term (kv :: rest) m := rfl

theorem fuzzyLoop_spec (score : String → String → ℚ) (term : String) :
    ∀ (l : List (String × List Entry)) (acc : List Entry) (m : ℚ),
      fuzzyLoop score term l acc m =
        (if fuzzyRunningMax score term l m = m then acc else [])
          ++ ((l.filter (fun kv =>
                score term kv.1 = fuzzyRunningMax score term l m)).map
              Prod.snd).flatten := by
  intro l
  induction l with
  | nil => intro acc m; simp [fuzzyLoop, fuzzyRunningMax]
  | cons kv rest ih =>
    intro acc m
    rcases kv with ⟨key, values⟩
    have hM : fuzzyRunningMax score term ((key, values) :: rest) m
        = fuzzyRunningMax score term rest (max m (score term key)) := rfl
    rcases lt_trichotomy (score term key) m with hs | hs | hs
    · -- score below the running maximum: key skipped
      have hmax : max m (score term key) = m := max_eq_left (le_of_lt hs)
      have hne : score term key ≠ fuzzyRunningMax score term rest m := by
        intro hcon
        have : m ≤ fuzzyRunningMax score term rest m := fuzzyRunningMax_ge _ _ _ _
        rw [← hcon] at this
        exact absurd this (not_le.mpr hs)
      have hloop : fuzzyLoop score term ((key, values) :: rest) acc m
          = fuzzyLoop score term rest acc m := by
        simp only [fuzzyLoop]
        rw [if_neg (not_le.mpr hs)]
      rw [hloop, ih, hM, hmax]
      congr 2
      rw [List.filter_cons]
      simp only [decide_eq_true_eq]
      rw [if_neg hne]
    · -- score equal to the running maximum: entries appended
      have hmax : max m (score term key) = m := max_eq_left (le_of_eq hs)
      have hloop : fuzzyLoop score term ((key, values) :: rest) acc m
          = fuzzyLoop score term rest (acc ++ values) m := by
        simp only [fuzzyLoop]
        rw [if_pos (le_of_eq hs.symm), if_neg (by rw [hs]; exact lt_irrefl m)]
      rw [hloop, ih, hM, hmax]
      rw [List.filter_cons]
      simp only [decide_eq_true_eq]
      by_cases hMm : fuzzyRunningMax score term rest m = m
      · rw [if_pos hMm, if_pos hMm, if_pos (by rw [hs, hMm])]
        simp [List.append_assoc]
      · rw [if_neg hMm, if_neg hMm, if_neg (fun hc => hMm (hc.symm.trans hs))]
    · -- score above the running maximum: accumulated entries replaced
      have hmax : max m (score term key) = score term key := max_eq_right (le_of_lt hs)
      have hloop : fuzzyLoop score term ((key, values) :: rest) acc m
          = fuzzyLoop score term rest values (score term key) := by
        simp only [fuzzyLoop]
        rw [if_pos (le_of_lt hs), if_pos hs]
      rw [hloop, ih, hM, hmax]
      have hge : score term key ≤ fuzzyRunningMax score term rest (score term key) :=
        fuzzyRunningMax_ge _ _ _ _
      have hMnm : fuzzyRunningMax score term rest (score term key) ≠ m := by
        intro hcon
        rw [hcon] at hge
        exact absurd hge (not_le.mpr hs)
      rw [if_neg hMnm]
      rw [List.filter_cons]
      simp only [decide_eq_true_eq]
      by_cases hMs : score term key = fuzzyRunningMax score term rest (score term key)
      · rw [if_pos hMs, if_pos hMs.symm]
        simp
      · rw [if_neg hMs, if_neg (fun hc => hMs hc.symm)]

/-- C5 — In the fuzzy tier, for every similarity scorer, query term and
source index, `fuzzy_match` returns exactly the union (in index order)
of the entry lists of all index keys whose similarity score equals the
running maximum `fuzzyRunningMax` (the largest key score, floored at
0.85), and `None` when that union is empty — in particular a key scoring
strictly higher than the running maximum replaces previously accumulated
matches, keys tying the maximum are unioned in, and if no key reaches
the 0.85 floor no key scores the floored maximum, so the slot stays
unresolved.  Two keys tied at 0.90 therefore both contribute their
entries. -/
theorem fuzzy_match_keeps_max_scoring_keys (score : String → String → ℚ)
    (term : String) (index : Index) :
    fuzzy_match score term index =
      (if fuzzySpecResult score term index = []
       then Option.none
       else some (fuzzySpecResult score term index))
    ∧ ((∀ kv ∈ index, score term kv.1 < 85/100) →
        fuzzy_match score term index = Option.none) := by
  have hchar : fuzzyLoop score term index [] (85/100)
      = fuzzySpecResult score term index := by
    rw [fuzzyLoop_spec]
    unfold fuzzySpecResult fuzzyRunningMax
    by_cases h : index.foldl (fun acc kv => max acc (score term kv.1)) (85/100)
        = 85/100
    · rw [if_pos h]; rfl
    · rw [if_neg h]; rfl
  constructor
  · unfold fuzzy_match
    rw [hchar]
    by_cases h : fuzzySpecResult score term index = []
    · rw [if_pos h]
      simp [h]
    · rw [if_neg h]
      simp [List.isEmpty_iff, h]
  · intro hlow
    unfold fuzzy_match
    rw [hchar]
    have hempty : fuzzySpecResult score term index = [] := by
      unfold fuzzySpecResult
      have hfilter : index.filter (fun kv =>
          score term kv.1 = fuzzyRunningMax score term index (85/100)) = [] := by
        apply List.filter_eq_nil_iff.mpr
        intro kv hkv
        simp only [decide_eq_true_eq]
        intro hcon
        have hge : (85 : ℚ)/100 ≤ fuzzyRunningMax score term index (85/100) :=
          fuzzyRunningMax_ge _ _ _ _
        rw [← hcon] at hge
        exact absurd hge (not_le.mpr (hlow kv hkv))
      rw [hfilter]
      rfl
    rw [hempty]
    simp

/-- Witness for C5: a concrete run in which no key reaches the 0.85
floor, discharging the hypothesis of the second conjunct. -/
theorem fuzzy_match_keeps_max_scoring_keys_witness :
    (∀ kv ∈ ([("k", [])] : Index), (fun (_ _ : String) => (0 : ℚ)) "x" kv.1 < 85/100)
    ∧ fuzzy_match (fun _ _ => (0 : ℚ)) "x" [("k", [])] = Option.none :=
  ⟨by intro kv hkv; norm_num,
   (fuzzy_match_keeps_max_scoring_keys (fun _ _ => (0 : ℚ)) "x" [("k", [])]).2
     (by intro kv hkv; norm_num)⟩

/-! ### C8: later tiers never overwrite a resolved slot; slots are
independent -/

theorem validateOntologySlot_preserve {sv : Option String}
    {cur : Option (List Entry)} {xs : List Entry} (remove : Bool)
    (eI uI : Index) (slot : Slot) (h : cur = some xs) :
    validateOntologySlot sv cur remove eI uI slot = some xs := by
  unfold validateOntologySlot
  rw [if_pos (Or.inr (by simp [h]))]
  exact h

theorem validateOntologyFuzzySlot_preserve (score : String → String → ℚ)
    {sv : Option String} {cur : Option (List Entry)} {xs : List Entry}
    (eF uF : Index) (slot : Slot) (h : cur = some xs) :
    validateOntologyFuzzySlot score sv cur eF uF slot = some xs := by
  unfold validateOntologyFuzzySlot
  rw [if_pos (Or.inr (by simp [h]))]
  exact h

theorem getVSlot_validate_ontology (obj : ExtractedOntologies)
    (cI eI uI : Index) (rm : Bool) (v : ValidatedSlots) (slot : Slot) :
    getVSlot (validate_ontology obj cI eI uI rm v) slot
      = validateOntologySlot (getSlot obj slot) (getVSlot v slot) rm eI uI slot := by
  cases slot <;> rfl

theorem getVSlot_validate_ontology_fuzzy (obj : ExtractedOntologies)
    (cF eF uF : Index) (score : String → String → ℚ) (v : ValidatedSlots)
    (slot : Slot) :
    getVSlot (validate_ontology_fuzzy obj cF eF uF score v) slot
      = validateOntologyFuzzySlot score (getSlot obj slot) (getVSlot v slot)
          eF uF slot := by
  cases slot <;> rfl

/-- C8 — Each matching tier is attempted only for slots not yet
resolved, and slots are mutually isolated: (1)–(2) an exact/reduced tier
pass and the fuzzy pass return a slot unchanged whenever it already
holds a match; (3) consequently the full five-tier `process_ontology`
waterfall returns, for a slot resolved by its first tier, exactly that
first-tier value; (4)–(5) a slot's outcome in either kind of pass
depends only on that slot's candidate string and prior state, never on
the other slots. -/
theorem ontology_tiers_preserve_resolved (slot : Slot) :
    (∀ (obj : ExtractedOntologies) (cI eI uI : Index) (rm : Bool)
        (v : ValidatedSlots) (xs : List Entry),
      getVSlot v slot = some xs →
      getVSlot (validate_ontology obj cI eI uI rm v) slot = some xs)
    ∧ (∀ (score : String → String → ℚ) (obj : ExtractedOntologies)
        (cF eF uF : Index) (v : ValidatedSlots) (xs : List Entry),
      getVSlot v slot = some xs →
      getVSlot (validate_ontology_fuzzy obj cF eF uF score v) slot = some xs)
    ∧ (∀ (score : String → String → ℚ)
        (cI eI uI cRI eRI uRI cFI eFI uFI : Index) (input : InputOntology)
        (xs : List Entry),
      getVSlot (validate_ontology input.extracted_ontologies cI eI uI false
        emptyValidated) slot = some xs →
      getVSlot (process_ontology score cI eI uI cRI eRI uRI cFI eFI uFI
        input).slots slot = some xs)
    ∧ (∀ (obj obj' : ExtractedOntologies) (cI cI' eI uI : Index) (rm : Bool)
        (v v' : ValidatedSlots),
      getSlot obj slot = getSlot obj' slot →
      getVSlot v slot = getVSlot v' slot →
      getVSlot (validate_ontology obj cI eI uI rm v) slot
        = getVSlot (validate_ontology obj' cI' eI uI rm v') slot)
    ∧ (∀ (score : String → String → ℚ) (obj obj' : ExtractedOntologies)
        (cF cF' eF uF : Index) (v v' : ValidatedSlots),
      getSlot obj slot = getSlot obj' slot →
      getVSlot v slot = getVSlot v' slot →
      getVSlot (validate_ontology_fuzzy obj cF eF uF score v) slot
        = getVSlot (validate_ontology_fuzzy obj' cF' eF uF score v') slot) := by
  refine ⟨?_, ?_, ?_, ?_, ?_⟩
  · intro obj cI eI uI rm v xs h
    rw [getVSlot_validate_ontology]
    exact validateOntologySlot_preserve rm eI uI slot h
  · intro score obj cF eF uF v xs h
    rw [getVSlot_validate_ontology_fuzzy]
    exact validateOntologyFuzzySlot_preserve score eF uF slot h
  · intro score cI eI uI cRI eRI uRI cFI eFI uFI input xs h
    unfold process_ontology
    rw [getVSlot_validate_ontology_fuzzy]
    apply validateOntologyFuzzySlot_preserve
    rw [getVSlot_validate_ontology]
    apply validateOntologySlot_preserve
    rw [getVSlot_validate_ontology]
    apply validateOntologySlot_preserve
    rw [getVSlot_validate_ontology]
    apply validateOntologySlot_preserve
    exact h
  · intro obj obj' cI cI' eI uI rm v v' hobj hv
    rw [getVSlot_validate_ontology, getVSlot_validate_ontology, hobj, hv]
  · intro score obj obj' cF cF' eF uF v v' hobj hv
    rw [getVSlot_validate_ontology_fuzzy, getVSlot_validate_ontology_fuzzy,
      hobj, hv]

/-- Witness for C8: with a first-tier index resolving `disease` for the
candidate `"breast cancer"`, the full waterfall returns the first-tier
value unchanged (hypotheses of conjunct (3) discharged concretely);
conjunct (1) applied to the same state. -/
theorem ontology_tiers_preserve_resolved_witness :
    getVSlot (validate_ontology
        { cell_line := some "N/A", cell_type := some "N/A",
          tissue := some "N/A", disease := some "breast cancer" }
        [] [("breastcancer", [[("official_term", Val.str "breast carcinoma")]])] []
        false emptyValidated) Slot.disease
      = some [[("official_term", Val.str "breast carcinoma"),
               ("term", Val.str "breast cancer"),
               ("term_identity", Val.str "disease")]]
    ∧ getVSlot ((process_ontology (fun _ _ => (0 : ℚ))
        [] [("breastcancer", [[("official_term", Val.str "breast carcinoma")]])] []
        [] [] [] [] [] []
        { extracted_ontologies :=
            { cell_line := some "N/A", cell_type := some "N/A",
              tissue := some "N/A", disease := some "breast cancer" },
          geo := "GSM1" }).slots) Slot.disease
      = some [[("official_term", Val.str "breast carcinoma"),
               ("term", Val.str "breast cancer"),
               ("term_identity", Val.str "disease")]] :=
  ⟨by decide,
   (ontology_tiers_preserve_resolved Slot.disease).2.2.1 (fun _ _ => (0 : ℚ))
     [] [("breastcancer", [[("official_term", Val.str "breast carcinoma")]])] []
     [] [] [] [] [] []
     { extracted_ontologies :=
         { cell_line := some "N/A", cell_type := some "N/A",
           tissue := some "N/A", disease := some "breast cancer" },
       geo := "GSM1" }
     [[("official_term", Val.str "breast carcinoma"),
       ("term", Val.str "breast cancer"),
       ("term_identity", Val.str "disease")]]
     (by decide)⟩

/-! ### C7: the "N/A" sentinel short-circuits to null and is never
retried -/

theorem validateOntologySlot_na (cur : Option (List Entry)) (remove : Bool)
    (eI uI : Index) (slot : Slot) :
    validateOntologySlot (some "N/A") cur remove eI uI slot = cur := by
  unfold validateOntologySlot
  rw [if_pos (Or.inl rfl)]

theorem validateOntologyFuzzySlot_na (score : String → String → ℚ)
    (cur : Option (List Entry)) (eF uF : Index) (slot : Slot) :
    validateOntologyFuzzySlot score (some "N/A") cur eF uF slot = cur := by
  unfold validateOntologyFuzzySlot
  rw [if_pos (Or.inl rfl)]

theorem getVSlot_empty (slot : Slot) : getVSlot emptyValidated slot = Option.none := by
  cases slot <;> rfl

theorem process_ontology_na (slot : Slot) (score : String → String → ℚ)
    (cI eI uI cRI eRI uRI cFI eFI uFI : Index) (input : InputOntology)
    (hna : getSlot input.extracted_ontologies slot = some "N/A") :
    getVSlot (process_ontology score cI eI uI cRI eRI uRI cFI eFI uFI
      input).slots slot = Option.none := by
  unfold process_ontology
  rw [getVSlot_validate_ontology_fuzzy, hna, validateOntologyFuzzySlot_na,
    getVSlot_validate_ontology, hna, validateOntologySlot_na,
    getVSlot_validate_ontology, hna, validateOntologySlot_na,
    getVSlot_validate_ontology, hna, validateOntologySlot_na,
    getVSlot_validate_ontology, hna, validateOntologySlot_na,
    getVSlot_empty]

theorem getVSlot_setVSlot_ne (v : ValidatedSlots) (s s' : Slot)
    (x : Option (List Entry)) (h : s ≠ s') :
    getVSlot (setVSlot v s' x) s = getVSlot v s := by
  cases s <;> cases s' <;> first | exact absurd rfl h | rfl

theorem verifySlotStep_na_preserve (score : String → String → ℚ)
    (cI eI uI cRI eRI uRI cFI eFI uFI : Index)
    (altNames : String → Except Unit (List String))
    (extracted : ExtractedOntologies) (geo : String)
    (acc acc₂ : ValidatedSlots) (slot slot' : Slot)
    (hna : getSlot extracted slot = some "N/A")
    (hstep : verifySlotStep score cI eI uI cRI eRI uRI cFI eFI uFI altNames
      extracted geo acc slot' = Except.ok acc₂) :
    getVSlot acc₂ slot = getVSlot acc slot := by
  by_cases hss : slot' = slot
  · subst hss
    unfold verifySlotStep at hstep
    rw [hna] at hstep
    dsimp only at hstep
    rw [if_pos (Or.inr (Or.inl rfl))] at hstep
    cases hstep
    rfl
  · unfold verifySlotStep at hstep
    cases hgs : getSlot extracted slot' with
    | none =>
      rw [hgs] at hstep
      cases hstep
      rfl
    | some s =>
      rw [hgs] at hstep
      dsimp only at hstep
      by_cases hcond : s = "" ∨ s = "N/A" ∨ getVSlot acc slot' ≠ Option.none
      · rw [if_pos hcond] at hstep
        cases hstep
        rfl
      · rw [if_neg hcond] at hstep
        cases halt : altNames s with
        | error e => rw [halt] at hstep; cases hstep
        | ok alts =>
          rw [halt] at hstep
          dsimp only at hstep
          cases htry : tryAlternates score cI eI uI cRI eRI uRI cFI eFI uFI
              geo slot' alts with
          | some entries =>
            rw [htry] at hstep
            cases hstep
            exact getVSlot_setVSlot_ne _ _ _ _ (fun hc => hss hc.symm)
          | none =>
            rw [htry] at hstep
            cases hstep
            rfl

theorem verifySlotLoop_na_preserve (score : String → String → ℚ)
    (cI eI uI cRI eRI uRI cFI eFI uFI : Index)
    (altNames : String → Except Unit (List String))
    (extracted : ExtractedOntologies) (geo : String) (slot : Slot)
    (hna : getSlot extracted slot = some "N/A") :
    ∀ (slots : List Slot) (acc out : ValidatedSlots),
      verifySlotLoop score cI eI uI cRI eRI uRI cFI eFI uFI altNames extracted
        geo acc slots = Except.ok out →
      getVSlot out slot = getVSlot acc slot := by
  intro slots
  induction slots with
  | nil =>
    intro acc out h
    cases h
    rfl
  | cons s rest ih =>
    intro acc out h
    unfold verifySlotLoop at h
    cases hstep : verifySlotStep score cI eI uI cRI eRI uRI cFI eFI uFI altNames
        extracted geo acc s with
    | error e => rw [hstep] at h; cases h
    | ok acc₂ =>
      rw [hstep] at h
      rw [ih acc₂ out h]
      exact verifySlotStep_na_preserve score cI eI uI cRI eRI uRI cFI eFI uFI
        altNames extracted geo acc acc₂ slot s hna hstep

theorem collapseSlots_none_preserve (slot : Slot) :
    ∀ (slots : List Slot) (v out : ValidatedSlots),
      getVSlot v slot = Option.none →
      collapseSlots v slots = Except.ok out →
      getVSlot out slot = Option.none := by
  intro slots
  induction slots with
  | nil =>
    intro v out hv h
    cases h
    exact hv
  | cons s rest ih =>
    intro v out hv h
    unfold collapseSlots at h
    cases hgs : getVSlot v s with
    | none =>
      rw [hgs] at h
      exact ih v out hv h
    | some entries =>
      rw [hgs] at h
      dsimp only at h
      cases hcol : collapse_ontology_terms entries with
      | error e => rw [hcol] at h; cases h
      | ok collapsed =>
        rw [hcol] at h
        apply ih _ out _ h
        by_cases hss : s = slot
        · subst hss
          rw [hgs] at hv
          cases hv
        · rw [getVSlot_setVSlot_ne _ _ _ _ (fun hc => hss hc.symm)]
          exact hv

theorem verifySlotStep_congr (score : String → String → ℚ)
    (cI eI uI cRI eRI uRI cFI eFI uFI : Index)
    (O O₂ : String → Except Unit (List String))
    (hOO : ∀ s, s ≠ "N/A" → O s = O₂ s)
    (extracted : ExtractedOntologies) (geo : String)
    (acc : ValidatedSlots) (slot : Slot) :
    verifySlotStep score cI eI uI cRI eRI uRI cFI eFI uFI O extracted geo acc slot
      = verifySlotStep score cI eI uI cRI eRI uRI cFI eFI uFI O₂ extracted geo
          acc slot := by
  unfold verifySlotStep
  cases hgs : getSlot extracted slot with
  | none => rfl
  | some s =>
    dsimp only
    by_cases hcond : s = "" ∨ s = "N/A" ∨ getVSlot acc slot ≠ Option.none
    · rw [if_pos hcond, if_pos hcond]
    · rw [if_neg hcond, if_neg hcond]
      have hs : s ≠ "N/A" := fun hc => hcond (Or.inr (Or.inl hc))
      rw [hOO s hs]

theorem verifySlotLoop_congr (score : String → String → ℚ)
    (cI eI uI cRI eRI uRI cFI eFI uFI : Index)
    (O O₂ : String → Except Unit (List String))
    (hOO : ∀ s, s ≠ "N/A" → O s = O₂ s)
    (extracted : ExtractedOntologies) (geo : String) :
    ∀ (slots : List Slot) (acc : ValidatedSlots),
      verifySlotLoop score cI eI uI cRI eRI uRI cFI eFI uFI O extracted geo
          acc slots
        = verifySlotLoop score cI eI uI cRI eRI uRI cFI eFI uFI O₂ extracted geo
            acc slots := by
  intro slots
  induction slots with
  | nil => intro acc; rfl
  | cons s rest ih =>
    intro acc
    unfold verifySlotLoop
    rw [verifySlotStep_congr score cI eI uI cRI eRI uRI cFI eFI uFI O O₂ hOO]
    cases verifySlotStep score cI eI uI cRI eRI uRI cFI eFI uFI O₂ extracted geo
        acc s with
    | error e => rfl
    | ok acc₂ => exact ih acc₂

/-- C7 — A slot whose candidate is the literal sentinel `"N/A"`
short-circuits: (1) the whole five-tier waterfall resolves it to `None`
whatever the indexes and the scorer; (2) whenever `verify_ontology`
returns a result, that slot is `None` in it; (3) `verify_ontology` is
insensitive to the alternate-name oracle's behaviour on the `"N/A"`
string — two oracles agreeing on every other string produce identical
results, so the oracle is never consulted for an `"N/A"` slot. -/
theorem na_sentinel_short_circuits (slot : Slot) :
    (∀ (score : String → String → ℚ)
        (cI eI uI cRI eRI uRI cFI eFI uFI : Index) (input : InputOntology),
      getSlot input.extracted_ontologies slot = some "N/A" →
      getVSlot (process_ontology score cI eI uI cRI eRI uRI cFI eFI uFI
        input).slots slot = Option.none)
    ∧ (∀ (score : String → String → ℚ)
        (cI eI uI cRI eRI uRI cFI eFI uFI : Index)
        (altNames : String → Except Unit (List String))
        (input : InputOntology) (v : ProcessedOntology),
      getSlot input.extracted_ontologies slot = some "N/A" →
      verify_ontology score cI eI uI cRI eRI uRI cFI eFI uFI altNames input
        = Except.ok v →
      getVSlot v.slots slot = Option.none)
    ∧ (∀ (score : String → String → ℚ)
        (cI eI uI cRI eRI uRI cFI eFI uFI : Index)
        (O O₂ : String → Except Unit (List String)) (input : InputOntology),
      (∀ s, s ≠ "N/A" → O s = O₂ s) →
      verify_ontology score cI eI uI cRI eRI uRI cFI eFI uFI O input
        = verify_ontology score cI eI uI cRI eRI uRI cFI eFI uFI O₂ input) := by
  refine ⟨?_, ?_, ?_⟩
  · intro score cI eI uI cRI eRI uRI cFI eFI uFI input hna
    exact process_ontology_na slot score cI eI uI cRI eRI uRI cFI eFI uFI
      input hna
  · intro score cI eI uI cRI eRI uRI cFI eFI uFI altNames input v hna hok
    have hnone : getVSlot (process_ontology score cI eI uI cRI eRI uRI cFI eFI
        uFI input).slots slot = Option.none :=
      process_ontology_na slot score cI eI uI cRI eRI uRI cFI eFI uFI input hna
    unfold verify_ontology at hok
    by_cases hinc : is_incomplete (process_ontology score cI eI uI cRI eRI uRI
        cFI eFI uFI input).slots = false
    · rw [if_pos hinc] at hok
      cases hok
      exact hnone
    · rw [if_neg hinc] at hok
      cases hloop : verifySlotLoop score cI eI uI cRI eRI uRI cFI eFI uFI
          altNames (process_ontology score cI eI uI cRI eRI uRI cFI eFI uFI
            input).extracted
          (process_ontology score cI eI uI cRI eRI uRI cFI eFI uFI input).geo
          (process_ontology score cI eI uI cRI eRI uRI cFI eFI uFI input).slots
          SLOTS with
      | error e => rw [hloop] at hok; cases hok
      | ok completed =>
        rw [hloop] at hok
        dsimp only at hok
        cases hcol : collapseSlots completed SLOTS with
        | error e => rw [hcol] at hok; cases hok
        | ok final =>
          rw [hcol] at hok
          cases hok
          have hcomp : getVSlot completed slot = Option.none := by
            have hext : getSlot (process_ontology score cI eI uI cRI eRI uRI cFI
                eFI uFI input).extracted slot = some "N/A" := hna
            rw [verifySlotLoop_na_preserve score cI eI uI cRI eRI uRI cFI eFI uFI
              altNames _ _ slot hext SLOTS _ completed hloop]
            exact hnone
          exact collapseSlots_none_preserve slot SLOTS completed final hcomp hcol
  · intro score cI eI uI cRI eRI uRI cFI eFI uFI O O₂ input hOO
    unfold verify_ontology
    by_cases hinc : is_incomplete (process_ontology score cI eI uI cRI eRI uRI
        cFI eFI uFI input).slots = false
    · rw [if_pos hinc, if_pos hinc]
    · rw [if_neg hinc, if_neg hinc]
      rw [verifySlotLoop_congr score cI eI uI cRI eRI uRI cFI eFI uFI O O₂ hOO]

/-- Witness for C7: a concrete input whose `cell_line` slot is `"N/A"`,
with a non-empty cellosaurus/EFO index and an alternate-name oracle;
every hypothesis of the theorem discharged concretely. -/
theorem na_sentinel_short_circuits_witness :
    getVSlot ((process_ontology (fun _ _ => (0 : ℚ))
      [("na", [[("official_term", Val.str "x")]])]
      [("na", [[("official_term", Val.str "x")]])] [] [] [] [] [] [] []
      { extracted_ontologies :=
          { cell_line := some "N/A", cell_type := some "N/A",
            tissue := some "N/A", disease := some "N/A" },
        geo := "GSM1" }).slots) Slot.cell_line = Option.none :=
  (na_sentinel_short_circuits Slot.cell_line).1 (fun _ _ => (0 : ℚ))
    [("na", [[("official_term", Val.str "x")]])]
    [("na", [[("official_term", Val.str "x")]])] [] [] [] [] [] [] []
    { extracted_ontologies :=
        { cell_line := some "N/A", cell_type := some "N/A",
          tissue := some "N/A", disease := some "N/A" },
      geo := "GSM1" }
    (by decide)

/-! ### C1: the Cellosaurus index is never consulted by the lookup
tiers -/

theorem fuzzy_match_nil (score : String → String → ℚ) (t : String) :
    fuzzy_match score t [] = Option.none := rfl

theorem validateOntologyFuzzySlot_nil (score : String → String → ℚ)
    (sv : Option String) (cur : Option (List Entry)) (slot : Slot) :
    validateOntologyFuzzySlot score sv cur [] [] slot
      = if sv = some "N/A" ∨ cur ≠ Option.none then cur else Option.none := by
  unfold validateOntologyFuzzySlot
  by_cases h : sv = some "N/A" ∨ cur ≠ Option.none
  · rw [if_pos h, if_pos h]
  · rw [if_neg h, if_neg h]
    cases sv with
    | none => rfl
    | some s =>
      dsimp only
      by_cases hk : clean_input_fuzzy s = ""
      · rw [if_pos hk]
      · rw [if_neg hk]
        rfl

/-- C1 (code-bug evaluation) — the `cellosaurus_index`,
`cellosaurus_reduce_index` and `cellosaurus_fuzzy_index` arguments are
dead in the lookup tiers: with the Cellosaurus index (in all three
variants) filing an entry under exactly the normalized key of the
`cell_line` candidate `"HeLa"`, and empty EFO/Uberon indexes, the whole
five-tier waterfall still leaves `cell_line` unresolved (`None`) for
every similarity scorer, although the key is present in the supplied
Cellosaurus index — the claim says such a candidate resolves to the
Cellosaurus entry. -/
theorem cellosaurus_index_never_consulted :
    ∀ score : String → String → ℚ,
      indexGet helaIndex "hela" = some [helaEntry]
      ∧ getVSlot (process_ontology score helaIndex [] [] helaIndex [] []
          helaIndex [] [] helaInput).slots Slot.cell_line = Option.none := by
  intro score
  refine ⟨by decide, ?_⟩
  have h4 : validate_ontology helaInput.extracted_ontologies helaIndex [] [] true
      (validate_ontology helaInput.extracted_ontologies helaIndex [] [] false
        (validate_ontology helaInput.extracted_ontologies helaIndex [] [] true
          (validate_ontology helaInput.extracted_ontologies helaIndex [] [] false
            emptyValidated))) = emptyValidated := by decide
  unfold process_ontology
  dsimp only
  rw [h4]
  rw [getVSlot_validate_ontology_fuzzy]
  rw [validateOntologyFuzzySlot_nil]
  rw [if_neg]
  intro hcon
  rcases hcon with hcon | hcon
  · exact absurd hcon (by decide)
  · exact hcon (by decide)

/-! ### C6: collapse groups by official term and merges fields -/

theorem mem_dedupKeepFirstAux {α : Type} [DecidableEq α] :
    ∀ (l seen : List α) (x : α),
      x ∈ dedupKeepFirstAux l seen ↔ x ∈ l ∧ x ∉ seen := by
  intro l
  induction l with
  | nil => intro seen x; simp [dedupKeepFirstAux]
  | cons a as ih =>
    intro seen x
    unfold dedupKeepFirstAux
    by_cases ha : a ∈ seen
    · rw [if_pos ha, ih]
      constructor
      · rintro ⟨hx, hs⟩
        exact ⟨List.mem_cons_of_mem _ hx, hs⟩
      · rintro ⟨hx, hs⟩
        rcases List.mem_cons.mp hx with rfl | hx
        · exact absurd ha hs
        · exact ⟨hx, hs⟩
    · rw [if_neg ha]
      constructor
      · intro hx
        rcases List.mem_cons.mp hx with rfl | hx
        · exact ⟨List.mem_cons_self _ _, ha⟩
        · rcases (ih (a :: seen) x).mp hx with ⟨h1, h2⟩
          exact ⟨List.mem_cons_of_mem _ h1,
            fun hc => h2 (List.mem_cons_of_mem _ hc)⟩
      · rintro ⟨hx, hs⟩
        rcases List.mem_cons.mp hx with rfl | hx
        · exact List.mem_cons_self _ _
        · by_cases hxa : x = a
          · subst hxa; exact List.mem_cons_self _ _
          · exact List.mem_cons_of_mem _ ((ih (a :: seen) x).mpr
              ⟨hx, fun hc => (List.mem_cons.mp hc).elim hxa hs⟩)

theorem mem_dedupKeepFirst {α : Type} [DecidableEq α] {l : List α} {x : α} :
    x ∈ dedupKeepFirst l ↔ x ∈ l := by
  unfold dedupKeepFirst
  rw [mem_dedupKeepFirstAux]
  simp

theorem nodup_dedupKeepFirstAux {α : Type} [DecidableEq α] :
    ∀ (l seen : List α), (dedupKeepFirstAux l seen).Nodup := by
  intro l
  induction l with
  | nil => intro seen; simp [dedupKeepFirstAux]
  | cons a as ih =>
    intro seen
    unfold dedupKeepFirstAux
    by_cases ha : a ∈ seen
    · rw [if_pos ha]; exact ih seen
    · rw [if_neg ha]
      refine List.nodup_cons.mpr ⟨?_, ih (a :: seen)⟩
      intro hc
      exact ((mem_dedupKeepFirstAux as (a :: seen) a).mp hc).2
        (List.mem_cons_self _ _)

theorem nodup_dedupKeepFirst {α : Type} [DecidableEq α] (l : List α) :
    (dedupKeepFirst l).Nodup := nodup_dedupKeepFirstAux l []

theorem dedupKeepFirstAux_append_singleton {α : Type} [DecidableEq α] :
    ∀ (l seen : List α) (x : α),
      dedupKeepFirstAux (l ++ [x]) seen
        = if x ∈ l ∨ x ∈ seen then dedupKeepFirstAux l seen
          else dedupKeepFirstAux l seen ++ [x] := by
  intro l
  induction l with
  | nil =>
    intro seen x
    simp only [List.nil_append, dedupKeepFirstAux]
    by_cases hx : x ∈ seen
    · rw [if_pos hx, if_pos (Or.inr hx)]
    · rw [if_neg hx, if_neg (by simp [hx])]
  | cons a as ih =>
    intro seen x
    simp only [List.cons_append]
    unfold dedupKeepFirstAux
    by_cases ha : a ∈ seen
    · rw [if_pos ha, if_pos ha, ih]
      by_cases hx : x ∈ as ∨ x ∈ seen
      · rw [if_pos hx, if_pos (by rcases hx with h | h; exact Or.inl (by simp [h]); exact Or.inr h)]
      · rw [if_neg hx, if_neg ?_]
        intro hc
        rcases hc with hc | hc
        · rcases List.mem_cons.mp hc with rfl | hc
          · exact hx (Or.inr ha)
          · exact hx (Or.inl hc)
        · exact hx (Or.inr hc)
    · rw [if_neg ha, if_neg ha, ih]
      by_cases hx : x ∈ as ∨ x ∈ a :: seen
      · rw [if_pos hx, if_pos ?_]
        rcases hx with h | h
        · exact Or.inl (by simp [h])
        · rcases List.mem_cons.mp h with rfl | h
          · exact Or.inl (by simp)
          · exact Or.inr h
      · rw [if_neg hx, if_neg ?_]
        · rfl
        · intro hc
          rcases hc with hc | hc
          · rcases List.mem_cons.mp hc with rfl | hc
            · exact hx (Or.inr (List.mem_cons_self _ _))
            · exact hx (Or.inl hc)
          · exact hx (Or.inr (List.mem_cons_of_mem _ hc))

theorem dedupKeepFirst_append_singleton {α : Type} [DecidableEq α]
    (l : List α) (x : α) :
    dedupKeepFirst (l ++ [x])
      = if x ∈ l then dedupKeepFirst l else dedupKeepFirst l ++ [x] := by
  unfold dedupKeepFirst
  rw [dedupKeepFirstAux_append_singleton]
  by_cases hx : x ∈ l
  · rw [if_pos hx, if_pos (by simp [hx])]
  · rw [if_neg hx, if_neg (by simp [hx])]

theorem addToGroup_map_mem {t : Option Val} (e : Entry)
    (G : Option Val → List Entry) :
    ∀ (ks : List (Option Val)), ks.Nodup → t ∈ ks →
      addToGroup t e (ks.map (fun t₀ => (t₀, G t₀)))
        = ks.map (fun t₀ => (t₀, G t₀ ++ if t₀ = t then [e] else [])) := by
  intro ks
  induction ks with
  | nil => intro _ h; simp at h
  | cons k rest ih =>
    intro hnd hmem
    rcases List.nodup_cons.mp hnd with ⟨hk, hrest⟩
    simp only [List.map_cons]
    unfold addToGroup
    by_cases hkt : k = t
    · rw [if_pos hkt]
      subst hkt
      rw [if_pos rfl]
      congr 1
      apply List.map_congr_left
      intro t₀ ht₀
      have : t₀ ≠ k := fun hc => hk (hc ▸ ht₀)
      rw [if_neg this]
      simp
    · rw [if_neg hkt, if_neg hkt]
      simp only [List.append_nil]
      congr 1
      apply ih hrest
      rcases List.mem_cons.mp hmem with rfl | hm
      · exact absurd rfl hkt
      · exact hm

theorem addToGroup_map_not_mem {t : Option Val} (e : Entry)
    (G : Option Val → List Entry) :
    ∀ (ks : List (Option Val)), t ∉ ks →
      addToGroup t e (ks.map (fun t₀ => (t₀, G t₀)))
        = ks.map (fun t₀ => (t₀, G t₀)) ++ [(t, [e])] := by
  intro ks
  induction ks with
  | nil => intro _; rfl
  | cons k rest ih =>
    intro hmem
    simp only [List.map_cons]
    unfold addToGroup
    have hkt : k ≠ t := fun hc => hmem (hc ▸ List.mem_cons_self _ _)
    rw [if_neg hkt]
    simp only [List.cons_append]
    congr 1
    exact ih (fun hc => hmem (List.mem_cons_of_mem _ hc))

theorem addToGroup_specGroups (xs : List Entry) (e : Entry) :
    addToGroup (officialTermOf e) e (specGroups xs) = specGroups (xs ++ [e]) := by
  unfold specGroups
  rw [List.map_append, List.map_cons, List.map_nil,
    dedupKeepFirst_append_singleton]
  by_cases hmem : officialTermOf e ∈ xs.map officialTermOf
  · rw [if_pos hmem]
    rw [addToGroup_map_mem e (fun t₀ => xs.filter (fun e₀ => officialTermOf e₀ = t₀))
      _ (nodup_dedupKeepFirst _) (mem_dedupKeepFirst.mpr hmem)]
    apply List.map_congr_left
    intro t₀ ht₀
    rw [List.filter_append]
    congr 1
    by_cases ht : t₀ = officialTermOf e
    · rw [if_pos ht]
      simp [List.filter, ht.symm]
    · rw [if_neg ht]
      have hne : (officialTermOf e = t₀) = False :=
        eq_false (fun hc => ht hc.symm)
      simp [List.filter, hne]
  · rw [if_neg hmem]
    rw [addToGroup_map_not_mem e (fun t₀ => xs.filter (fun e₀ => officialTermOf e₀ = t₀))
      _ (fun hc => hmem (mem_dedupKeepFirst.mp hc))]
    rw [List.map_append, List.map_cons, List.map_nil]
    congr 1
    · apply List.map_congr_left
      intro t₀ ht₀
      rw [List.filter_append]
      have ht : officialTermOf e ≠ t₀ := by
        intro hc
        exact hmem (hc ▸ mem_dedupKeepFirst.mp ht₀) 
      have : (officialTermOf e = t₀) = False := by simp [ht]
      simp [List.filter, this]
    · have hfe : xs.filter (fun e₀ => officialTermOf e₀ = officialTermOf e) = [] := by
        apply List.filter_eq_nil_iff.mpr
        intro e₀ he₀
        simp only [decide_eq_true_eq]
        intro hc
        exact hmem (hc ▸ List.mem_map_of_mem officialTermOf he₀)
      rw [List.filter_append, hfe]
      simp [List.filter]

theorem groupByTerm_spec (entries : List Entry) :
    groupByTerm entries = specGroups entries := by
  have key : ∀ (todo done : List Entry),
      todo.foldl (fun gs e => addToGroup (officialTermOf e) e gs)
        (specGroups done) = specGroups (done ++ todo) := by
    intro todo
    induction todo with
    | nil => intro done; simp
    | cons e rest ih =>
      intro done
      simp only [List.foldl_cons]
      rw [addToGroup_specGroups, ih]
      simp
  have h0 : specGroups [] = [] := rfl
  unfold groupByTerm
  calc entries.foldl (fun gs e => addToGroup (officialTermOf e) e gs) []
      = entries.foldl (fun gs e => addToGroup (officialTermOf e) e gs)
          (specGroups []) := by rw [h0]
    _ = specGroups ([] ++ entries) := key entries []
    _ = specGroups entries := by simp

theorem dictGet_collapseGroup_term (t : Val) (group : List Entry) :
    dictGet "official_term" (collapseGroup t group) = some t := by
  unfold collapseGroup dictGet
  rw [if_pos rfl]

theorem dictGet_eq_none_of_not_mem {k : String} :
    ∀ {d : Entry}, k ∉ d.map Prod.fst → dictGet k d = Option.none := by
  intro d
  induction d with
  | nil => intro _; rfl
  | cons kv rest ih =>
    intro h
    rcases kv with ⟨k₀, v₀⟩
    unfold dictGet
    have hne : k₀ ≠ k := by
      intro hc
      exact h (by simp [hc])
    rw [if_neg hne]
    exact ih (fun hc => h (by simp [hc]))

theorem dictGet_collapseGroup {k : String} (t : Val) (group : List Entry)
    (hne : k ≠ "official_term") (hk : k ∈ groupKeys group) :
    dictGet k (collapseGroup t group)
      = some (match dedupKeepFirst (fieldValues group k) with
              | [v] => v
              | vs => Val.list (vs.filterMap valStr)) := by
  unfold collapseGroup
  unfold dictGet
  rw [if_neg (fun hc => hne hc.symm)]
  revert hk
  generalize groupKeys group = ks
  intro hk
  induction ks with
  | nil => simp at hk
  | cons k₀ rest ih =>
    simp only [List.map_cons]
    unfold dictGet
    by_cases hkk : k₀ = k
    · subst hkk
      rw [if_pos rfl]
    · rw [if_neg hkk]
      apply ih
      rcases List.mem_cons.mp hk with rfl | hm
      · exact absurd rfl hkk
      · exact hm

theorem mem_groupKeys_of_fieldValues {group : List Entry} {k : String}
    (hne : k ≠ "official_term") (h : fieldValues group k ≠ []) :
    k ∈ groupKeys group := by
  by_contra hk
  apply h
  apply List.filterMap_eq_nil_iff.mpr
  intro e he
  have hkey : k ∉ e.map Prod.fst := by
    intro hmem
    apply hk
    unfold groupKeys
    apply List.mem_filter.mpr
    refine ⟨mem_dedupKeepFirst.mpr ?_, by simpa using hne⟩
    apply List.mem_flatten.mpr
    exact ⟨e.map Prod.fst, List.mem_map_of_mem _ he, hmem⟩
  rw [dictGet_eq_none_of_not_mem hkey]

/-- C6 — `collapse_ontology_terms` (on entries that all carry an
`official_term` and only hashable values, where the source cannot raise)
returns exactly one merged object per distinct official term, in
first-appearance order, built from the group of input entries sharing
that term; within a group each other field merges to the scalar single
distinct value when there is exactly one, and to the list of the
distinct values when there are several. -/
theorem collapse_ontology_terms_spec (entries : List Entry)
    (h1 : ∀ e ∈ entries, (officialTermOf e).isSome = true)
    (h2 : ∀ e ∈ entries, ∀ kv ∈ e, valHashable kv.2 = true) :
    ∃ out, collapse_ontology_terms entries = Except.ok out
      ∧ out = (dedupKeepFirst (entries.map officialTermOf)).map
          (fun t => collapseGroup (t.getD Val.none)
            (entries.filter (fun e => officialTermOf e = t)))
      ∧ out.map (fun e => dictGet "official_term" e)
          = (dedupKeepFirst (entries.map officialTermOf)).map
              (fun t => some (t.getD Val.none))
      ∧ ∀ (t : Option Val) (k : String), k ≠ "official_term" →
          (∀ v, dedupKeepFirst (fieldValues
              (entries.filter (fun e => officialTermOf e = t)) k) = [v] →
            dictGet k (collapseGroup (t.getD Val.none)
              (entries.filter (fun e => officialTermOf e = t))) = some v)
          ∧ (∀ v₁ v₂ vs, dedupKeepFirst (fieldValues
              (entries.filter (fun e => officialTermOf e = t)) k)
                = v₁ :: v₂ :: vs →
            dictGet k (collapseGroup (t.getD Val.none)
              (entries.filter (fun e => officialTermOf e = t)))
              = some (Val.list ((v₁ :: v₂ :: vs).filterMap valStr))) := by
  have hguard : (entries.all (fun e => (officialTermOf e).isSome)
      && entries.all (fun e => e.all (fun kv => valHashable kv.2))) = true := by
    rw [Bool.and_eq_true, List.all_eq_true, List.all_eq_true]
    exact ⟨fun e he => h1 e he, fun e he => List.all_eq_true.mpr (h2 e he)⟩
  refine ⟨_, ?_, rfl, ?_, ?_⟩
  · unfold collapse_ontology_terms
    rw [if_pos hguard, groupByTerm_spec]
    unfold specGroups
    rw [List.map_map]
    rfl
  · rw [List.map_map]
    apply List.map_congr_left
    intro t ht
    exact dictGet_collapseGroup_term _ _
  · intro t k hkne
    constructor
    · intro v hv
      have hne : fieldValues (entries.filter (fun e => officialTermOf e = t)) k
          ≠ [] := by
        intro hc
        rw [hc] at hv
        cases hv
      rw [dictGet_collapseGroup _ _ hkne (mem_groupKeys_of_fieldValues hkne hne)]
      rw [hv]
    · intro v₁ v₂ vs hv
      have hne : fieldValues (entries.filter (fun e => officialTermOf e = t)) k
          ≠ [] := by
        intro hc
        rw [hc] at hv
        cases hv
      rw [dictGet_collapseGroup _ _ hkne (mem_groupKeys_of_fieldValues hkne hne)]
      rw [hv]

/-- Witness for C6: two entries sharing `official_term` `"X"` but
differing in `ontology_accession`, identical in `term_identity`. -/
theorem collapse_ontology_terms_spec_witness :
    (∀ e ∈ [[("official_term", Val.str "X"), ("ontology_accession", Val.str "A1"),
             ("term_identity", Val.str "cell_line")],
            [("official_term", Val.str "X"), ("ontology_accession", Val.str "A2"),
             ("term_identity", Val.str "cell_line")]],
        (officialTermOf e).isSome = true)
    ∧ ∃ out, collapse_ontology_terms
        [[("official_term", Val.str "X"), ("ontology_accession", Val.str "A1"),
          ("term_identity", Val.str "cell_line")],
         [("official_term", Val.str "X"), ("ontology_accession", Val.str "A2"),
          ("term_identity", Val.str "cell_line")]] = Except.ok out
      ∧ out = (dedupKeepFirst (([[("official_term", Val.str "X"),
          ("ontology_accession", Val.str "A1"),
          ("term_identity", Val.str "cell_line")],
         [("official_term", Val.str "X"), ("ontology_accession", Val.str "A2"),
          ("term_identity", Val.str "cell_line")]] : List Entry).map
            officialTermOf)).map
          (fun t => collapseGroup (t.getD Val.none)
            (([[("official_term", Val.str "X"), ("ontology_accession", Val.str "A1"),
               ("term_identity", Val.str "cell_line")],
              [("official_term", Val.str "X"), ("ontology_accession", Val.str "A2"),
               ("term_identity", Val.str "cell_line")]] : List Entry).filter
              (fun e => officialTermOf e = t))) := by
  refine ⟨by decide, ?_⟩
  rcases collapse_ontology_terms_spec
      [[("official_term", Val.str "X"), ("ontology_accession", Val.str "A1"),
        ("term_identity", Val.str "cell_line")],
       [("official_term", Val.str "X"), ("ontology_accession", Val.str "A2"),
        ("term_identity", Val.str "cell_line")]]
      (by decide) (by decide) with ⟨out, hok, hshape, -, -⟩
  exact ⟨out, hok, hshape⟩

/-! ### C9: shape of the per-identifier output slots -/

/-- C9 (counterexample) — the claim as stated is false: a slot for which
no tier and no alternate name produced a match (validated value `None`)
is emitted as the sentinel STRING `"N/A"`, not as `null`. -/
theorem output_slot_na_not_null :
    ((_format_output_structure "GSM1" Option.none (some emptyValidated)).ontology).map
        (fun b => b.cell_line) = some (OutVal.strVal "N/A")
    ∧ OutVal.strVal "N/A" ≠ OutVal.null := by
  exact ⟨rfl, by decide⟩

/-- C9 (amended) — in the per-identifier output record each ontology
slot under `ontology.extracted_ontologies` is either the literal string
`"N/A"` (when the validated slot is `None`, i.e. unmatched or asserted
absent) or the list of merged entries of a resolved slot; it is never
`null` and never a bare scalar entry. -/
theorem output_slot_shape (gsm_id : String) (f : Option String)
    (eo : ValidatedSlots) (slot : Slot) :
    ∃ b, (_format_output_structure gsm_id f (some eo)).ontology = some b
      ∧ getOutSlot b slot
          = (match getVSlot eo slot with
             | some l => OutVal.entriesVal l
             | Option.none => OutVal.strVal "N/A")
      ∧ getOutSlot b slot ≠ OutVal.null := by
  have hnn : ∀ v : Option (List Entry), formatSlot v ≠ OutVal.null := by
    intro v
    cases v <;> intro h <;> cases h
  refine ⟨_, rfl, ?_, ?_⟩
  · cases slot <;> rfl
  · cases slot <;> exact hnn _

/-! ### C4: an alternate-name oracle failure is NOT isolated to its
slot -/

/-- C4 (counterexample) — the claim as stated is false at a concrete
input: the waterfall resolves `tissue` (`"lung"` hits the EFO index),
`cell_line` (`"XYZ"`) stays unresolved, and the alternate-name oracle
raises for it; the claim says the other slots keep their values and only
the failing slot degrades to null, but `extract_verify_ontology`
discards the whole ontology result (`None`). -/
theorem verify_ontology_oracle_error_discards_all :
    getVSlot (process_ontology (fun _ _ => (0 : ℚ))
      [] [("lung", [[("official_term", Val.str "lung")]])] [] [] [] [] [] [] []
      { extracted_ontologies :=
          { cell_line := some "XYZ", cell_type := some "N/A",
            tissue := some "lung", disease := some "N/A" },
        geo := "GSM1" }).slots Slot.tissue
      = some [[("official_term", Val.str "lung"),
               ("term", Val.str "lung"),
               ("term_identity", Val.str "tissue")]]
    ∧ extract_verify_ontology (fun _ _ => (0 : ℚ))
      [] [("lung", [[("official_term", Val.str "lung")]])] [] [] [] [] [] [] []
      (fun _ => Except.error ())
      (Except.ok { cell_line := some "XYZ", cell_type := some "N/A",
                   tissue := some "lung", disease := some "N/A" })
      "GSM1" = Option.none := by
  exact ⟨by decide, by decide⟩

theorem is_incomplete_of_cell_line_none {v : ValidatedSlots}
    (h : v.cell_line = Option.none) : is_incomplete v = true := by
  unfold is_incomplete
  rw [h]
  rfl

/-- C4 (amended) — failure semantics of the retry round: if the
waterfall leaves the `cell_line` slot unresolved, its candidate is
truthy and not `"N/A"`, and the alternate-name oracle raises for that
candidate, then the exception propagates out of `verify_ontology`
(aborting the retry round for every slot, resolved values included) and
`extract_verify_ontology` catches it and returns `None`, discarding the
whole per-identifier ontology result. -/
theorem verify_ontology_oracle_error_propagates
    (score : String → String → ℚ)
    (cI eI uI cRI eRI uRI cFI eFI uFI : Index)
    (altNames : String → Except Unit (List String))
    (eo : ExtractedOntologies) (gsm s : String)
    (hs : eo.cell_line = some s) (hs1 : s ≠ "") (hs2 : s ≠ "N/A")
    (hunres : (process_ontology score cI eI uI cRI eRI uRI cFI eFI uFI
      { extracted_ontologies := eo, geo := gsm }).slots.cell_line = Option.none)
    (herr : altNames s = Except.error ()) :
    verify_ontology score cI eI uI cRI eRI uRI cFI eFI uFI altNames
      { extracted_ontologies := eo, geo := gsm } = Except.error ()
    ∧ extract_verify_ontology score cI eI uI cRI eRI uRI cFI eFI uFI altNames
      (Except.ok eo) gsm = Option.none := by
  have hverify : verify_ontology score cI eI uI cRI eRI uRI cFI eFI uFI altNames
      { extracted_ontologies := eo, geo := gsm } = Except.error () := by
    unfold verify_ontology
    rw [if_neg (by rw [is_incomplete_of_cell_line_none hunres]; intro h; cases h)]
    have hstep : verifySlotStep score cI eI uI cRI eRI uRI cFI eFI uFI altNames
        (process_ontology score cI eI uI cRI eRI uRI cFI eFI uFI
          { extracted_ontologies := eo, geo := gsm }).extracted
        (process_ontology score cI eI uI cRI eRI uRI cFI eFI uFI
          { extracted_ontologies := eo, geo := gsm }).geo
        (process_ontology score cI eI uI cRI eRI uRI cFI eFI uFI
          { extracted_ontologies := eo, geo := gsm }).slots
        Slot.cell_line = Except.error () := by
      unfold verifySlotStep
      have hget : getSlot (process_ontology score cI eI uI cRI eRI uRI cFI eFI uFI
          { extracted_ontologies := eo, geo := gsm }).extracted Slot.cell_line
          = some s := hs
      rw [hget]
      dsimp only
      rw [if_neg ?_]
      · rw [herr]
      · intro hcon
        rcases hcon with h | h | h
        · exact hs1 h
        · exact hs2 h
        · exact h hunres
    have hloop : verifySlotLoop score cI eI uI cRI eRI uRI cFI eFI uFI altNames
        (process_ontology score cI eI uI cRI eRI uRI cFI eFI uFI
          { extracted_ontologies := eo, geo := gsm }).extracted
        (process_ontology score cI eI uI cRI eRI uRI cFI eFI uFI
          { extracted_ontologies := eo, geo := gsm }).geo
        (process_ontology score cI eI uI cRI eRI uRI cFI eFI uFI
          { extracted_ontologies := eo, geo := gsm }).slots
        SLOTS = Except.error () := by
      unfold SLOTS verifySlotLoop
      rw [hstep]
    rw [hloop]
  refine ⟨hverify, ?_⟩
  unfold extract_verify_ontology
  dsimp only
  rw [hverify]

/-- Witness for the amended C4 theorem at the concrete counterexample
input. -/
theorem verify_ontology_oracle_error_propagates_witness :
    ({ cell_line := some "XYZ", cell_type := some "N/A",
       tissue := some "lung", disease := some "N/A" } :
        ExtractedOntologies).cell_line = some "XYZ"
    ∧ extract_verify_ontology (fun _ _ => (0 : ℚ))
      [] [("lung", [[("official_term", Val.str "lung")]])] [] [] [] [] [] [] []
      (fun _ => Except.error ())
      (Except.ok { cell_line := some "XYZ", cell_type := some "N/A",
                   tissue := some "lung", disease := some "N/A" })
      "GSM1" = Option.none :=
  ⟨rfl,
   (verify_ontology_oracle_error_propagates (fun _ _ => (0 : ℚ))
     [] [("lung", [[("official_term", Val.str "lung")]])] [] [] [] [] [] [] []
     (fun _ => Except.error ())
     { cell_line := some "XYZ", cell_type := some "N/A",
       tissue := some "lung", disease := some "N/A" }
     "GSM1" "XYZ" rfl (by decide) (by decide) (by decide) rfl).2⟩

/-! ### C2: the recheck loop runs exactly three bounded rounds -/

theorem validate_binding_protein_cases (factor : String) (ms : List GeneRow)
    (tf : List String) (cr : ChromatinDB)
    (tfP crP gP : List GeneRow → Except Unit String) :
    validate_binding_protein factor ms tf cr tfP crP gP
        = (FactorResult.noneStr, false)
      ∨ (validate_binding_protein factor ms tf cr tfP crP gP).2 = true := by
  unfold validate_binding_protein
  repeat' split
  all_goals simp

theorem validate_binding_protein_unsat {factor : String} {ms : List GeneRow}
    {tf : List String} {cr : ChromatinDB}
    {tfP crP gP : List GeneRow → Except Unit String}
    (h : (validate_binding_protein factor ms tf cr tfP crP gP).2 = false) :
    (validate_binding_protein factor ms tf cr tfP crP gP).1
      = FactorResult.noneStr := by
  rcases validate_binding_protein_cases factor ms tf cr tfP crP gP with hc | hc
  · rw [hc]
  · rw [hc] at h; cases h

theorem synonymFold_unsat (genes : List GeneRow) (tf : List String)
    (cr : ChromatinDB) (tfP crP gP : List GeneRow → Except Unit String) :
    ∀ (syns : List String) (start : FactorResult × Bool),
      start.2 = false →
      (∀ syn ∈ syns, (validate_binding_protein syn (match_human_gene genes syn)
        tf cr tfP crP gP).2 = false) →
      (synonymFold genes tf cr tfP crP gP syns start).2 = false
      ∧ ((synonymFold genes tf cr tfP crP gP syns start).1 = start.1
         ∨ (synonymFold genes tf cr tfP crP gP syns start).1
             = FactorResult.noneStr) := by
  intro syns
  induction syns with
  | nil =>
    intro start h _
    exact ⟨h, Or.inl rfl⟩
  | cons syn rest ih =>
    intro start hstart hsyn
    rcases start with ⟨r, s⟩
    have hs : s = false := hstart
    subst hs
    unfold synonymFold
    rw [if_neg (by simp)]
    dsimp only
    by_cases hm : (match_human_gene genes syn).isEmpty = true
    · rw [if_pos hm]
      exact ih (r, false) rfl (fun sy hsy => hsyn sy (List.mem_cons_of_mem _ hsy))
    · rw [if_neg hm]
      have hbp2 : (validate_binding_protein syn (match_human_gene genes syn)
          tf cr tfP crP gP).2 = false := hsyn syn (List.mem_cons_self _ _)
      have hbp1 : (validate_binding_protein syn (match_human_gene genes syn)
          tf cr tfP crP gP).1 = FactorResult.noneStr :=
        validate_binding_protein_unsat hbp2
      rcases ih (validate_binding_protein syn (match_human_gene genes syn)
          tf cr tfP crP gP) hbp2
          (fun sy hsy => hsyn sy (List.mem_cons_of_mem _ hsy)) with ⟨h2, h1⟩
      refine ⟨h2, ?_⟩
      rcases h1 with h1 | h1
      · rw [h1, hbp1]
        exact Or.inr rfl
      · exact Or.inr h1


theorem vfStep2_unsat (genes : List GeneRow) (tf : List String)
    (cr : ChromatinDB) (tfP crP gP : List GeneRow → Except Unit String)
    (synOracle : String → Except Unit (List String))
    (result : FactorResult) (c : String)
    (hb : (validate_binding_protein c (match_human_gene genes c) tf cr tfP crP
      gP).2 = false)
    (hsyn : ∀ syn ∈ (match synOracle c with
        | Except.error _ => []
        | Except.ok l => l),
      (validate_binding_protein syn (match_human_gene genes syn) tf cr tfP crP
        gP).2 = false) :
    (vfStep2 genes tf cr tfP crP gP synOracle result c).2 = false
    ∧ ((vfStep2 genes tf cr tfP crP gP synOracle result c).1 = result
       ∨ (vfStep2 genes tf cr tfP crP gP synOracle result c).1
           = FactorResult.noneStr) := by
  unfold vfStep2 vfStep1
  by_cases hNone : c = "None"
  · rw [if_pos hNone]
    simp [hNone]
  · rw [if_neg hNone]
    by_cases hm : (match_human_gene genes c).isEmpty = true
    · rw [if_pos hm]
      dsimp only
      rw [if_neg (by simp), if_neg hNone]
      have h := synonymFold_unsat genes tf cr tfP crP gP
        (match synOracle c with
          | Except.error _ => []
          | Except.ok l => l) (result, false) rfl hsyn
      exact ⟨h.1, h.2⟩
    · rw [if_neg hm]
      dsimp only
      rw [if_neg (by rw [hb]; simp), if_neg hNone]
      have h := synonymFold_unsat genes tf cr tfP crP gP
        (match synOracle c with
          | Except.error _ => []
          | Except.ok l => l)
        (validate_binding_protein c (match_human_gene genes c) tf cr tfP crP gP)
        hb hsyn
      refine ⟨h.1, ?_⟩
      rcases h.2 with h1 | h1
      · rw [h1, validate_binding_protein_unsat hb]
        exact Or.inr rfl
      · exact Or.inr h1

theorem verify_factor_loop_succ (genes : List GeneRow) (tf : List String)
    (cr : ChromatinDB) (tfP crP gP : List GeneRow → Except Unit String)
    (synOracle : String → Except Unit (List String))
    (recheckOracle : List String → Except Unit String)
    (n : Nat) (factor : String) (failed : List String)
    (result : FactorResult) (trace : List (List String)) :
    verify_factor_loop genes tf cr tfP crP gP synOracle recheckOracle
        (n + 1) factor failed result trace
      = if validate_histone_mark factor
        then (FactorResult.symbolOnly factor, trace)
        else
          if (vfStep2 genes tf cr tfP crP gP synOracle result factor).2
          then ((vfStep2 genes tf cr tfP crP gP synOracle result factor).1,
            trace)
          else
            match recheckOracle (failed ++ [factor]) with
            | Except.error _ =>
              ((vfStep2 genes tf cr tfP crP gP synOracle result factor).1,
                trace ++ [failed ++ [factor]])
            | Except.ok newFactor =>
              verify_factor_loop genes tf cr tfP crP gP synOracle recheckOracle
                n newFactor (failed ++ [factor])
                (vfStep2 genes tf cr tfP crP gP synOracle result factor).1
                (trace ++ [failed ++ [factor]]) := rfl

theorem verify_factor_round (genes : List GeneRow) (tf : List String)
    (cr : ChromatinDB) (tfP crP gP : List GeneRow → Except Unit String)
    (synOracle : String → Except Unit (List String)) (g : List String → String)
    (n : Nat) (c : String) (failed : List String) (result : FactorResult)
    (trace : List (List String))
    (hh : validate_histone_mark c = false)
    (hb : (validate_binding_protein c (match_human_gene genes c) tf cr tfP crP
      gP).2 = false)
    (hsyn : ∀ syn ∈ (match synOracle c with
        | Except.error _ => []
        | Except.ok l => l),
      (validate_binding_protein syn (match_human_gene genes syn) tf cr tfP crP
        gP).2 = false) :
    ∃ r₂, (r₂ = result ∨ r₂ = FactorResult.noneStr)
      ∧ verify_factor_loop genes tf cr tfP crP gP synOracle
          (fun l => Except.ok (g l)) (n + 1) c failed result trace
        = verify_factor_loop genes tf cr tfP crP gP synOracle
            (fun l => Except.ok (g l)) n (g (failed ++ [c])) (failed ++ [c])
            r₂ (trace ++ [failed ++ [c]]) := by
  have h2 := vfStep2_unsat genes tf cr tfP crP gP synOracle result c hb hsyn
  refine ⟨(vfStep2 genes tf cr tfP crP gP synOracle result c).1, h2.2, ?_⟩
  rw [verify_factor_loop_succ, hh]
  simp only [Bool.false_eq_true, if_false]
  rw [h2.1]
  simp only [Bool.false_eq_true, if_false]

/-- C2.  Corrected form of the claim: for every candidate factor such
that no round's histone check, gene lookup, disambiguation or synonym
retry succeeds (here: candidate `factor`, then the oracle's answers
`c₂` and `c₃`) and the recheck oracle never raises (`fun l =>
Except.ok (g l)`), `verify_factor` terminates after exactly three
rounds and calls `factor_recheck` exactly three times, each call
receiving the accumulated list of previously failed candidates — but
the returned result is only `empty` (the untouched initial result) if
no round ever reached `validate_binding_protein`; a round whose
candidate had gene matches overwrites it with the `"none"` placeholder
result, which is what is then returned. -/
theorem verify_factor_three_rounds (genes : List GeneRow) (tf : List String)
    (cr : ChromatinDB) (tfP crP gP : List GeneRow → Except Unit String)
    (synOracle : String → Except Unit (List String)) (g : List String → String)
    (factor c₂ c₃ : String)
    (hc₂ : c₂ = g [factor]) (hc₃ : c₃ = g [factor, c₂])
    (hh₁ : validate_histone_mark factor = false)
    (hb₁ : (validate_binding_protein factor (match_human_gene genes factor)
      tf cr tfP crP gP).2 = false)
    (hsyn₁ : ∀ syn ∈ (match synOracle factor with
        | Except.error _ => []
        | Except.ok l => l),
      (validate_binding_protein syn (match_human_gene genes syn) tf cr tfP crP
        gP).2 = false)
    (hh₂ : validate_histone_mark c₂ = false)
    (hb₂ : (validate_binding_protein c₂ (match_human_gene genes c₂)
      tf cr tfP crP gP).2 = false)
    (hsyn₂ : ∀ syn ∈ (match synOracle c₂ with
        | Except.error _ => []
        | Except.ok l => l),
      (validate_binding_protein syn (match_human_gene genes syn) tf cr tfP crP
        gP).2 = false)
    (hh₃ : validate_histone_mark c₃ = false)
    (hb₃ : (validate_binding_protein c₃ (match_human_gene genes c₃)
      tf cr tfP crP gP).2 = false)
    (hsyn₃ : ∀ syn ∈ (match synOracle c₃ with
        | Except.error _ => []
        | Except.ok l => l),
      (validate_binding_protein syn (match_human_gene genes syn) tf cr tfP crP
        gP).2 = false) :
    ∃ res, verify_factor genes tf cr tfP crP gP synOracle
        (fun l => Except.ok (g l)) factor
        = (res, [[factor], [factor, c₂], [factor, c₂, c₃]])
      ∧ (res = FactorResult.empty ∨ res = FactorResult.noneStr) := by
  obtain ⟨r₁, hr₁, he₁⟩ := verify_factor_round genes tf cr tfP crP gP synOracle
    g 2 factor [] FactorResult.empty [] hh₁ hb₁ hsyn₁
  simp only [List.nil_append] at he₁
  rw [← hc₂] at he₁
  obtain ⟨r₂, hr₂, he₂⟩ := verify_factor_round genes tf cr tfP crP gP synOracle
    g 1 c₂ [factor] r₁ [[factor]] hh₂ hb₂ hsyn₂
  simp only [List.cons_append, List.nil_append] at he₂
  rw [← hc₃] at he₂
  obtain ⟨r₃, hr₃, he₃⟩ := verify_factor_round genes tf cr tfP crP gP synOracle
    g 0 c₃ [factor, c₂] r₂ [[factor], [factor, c₂]] hh₃ hb₃ hsyn₃
  simp only [List.cons_append, List.nil_append] at he₃
  refine ⟨r₃, ?_, ?_⟩
  · show verify_factor_loop genes tf cr tfP crP gP synOracle
      (fun l => Except.ok (g l)) 3 factor [] FactorResult.empty [] = _
    rw [he₁, he₂, he₃]
    rfl
  · rcases hr₃ with rfl | rfl
    · rcases hr₂ with rfl | rfl
      · exact hr₁
      · exact Or.inr rfl
    · exact Or.inr rfl

/-- C2 counterexample to the claim as stated: with the gene table
holding a synonym match for the candidate `"AAA"`, every
disambiguation oracle failing and the recheck oracle always answering
`"AAA"` (never raising), the loop runs its three rounds and makes its
three recheck calls with the accumulated failure lists, but the result
is the `"none"` placeholder left by `validate_binding_protein`, not
the untouched `empty` result the claim promises. -/
theorem verify_factor_claim_false :
    verify_factor [⟨"AAA", "-"⟩, ⟨"BBB", "aaa"⟩] [] ⟨[], []⟩
        (fun _ => Except.error ()) (fun _ => Except.error ())
        (fun _ => Except.error ()) (fun _ => Except.ok [])
        (fun _ => Except.ok "AAA") "AAA"
      = (FactorResult.noneStr, [["AAA"], ["AAA", "AAA"], ["AAA", "AAA", "AAA"]])
    ∧ FactorResult.noneStr ≠ FactorResult.empty := by
  refine ⟨?_, by decide⟩
  rfl

theorem verify_factor_three_rounds_witness :
    ∃ res, verify_factor [⟨"AAA", "-"⟩, ⟨"BBB", "aaa"⟩] [] ⟨[], []⟩
        (fun _ => Except.error ()) (fun _ => Except.error ())
        (fun _ => Except.error ()) (fun _ => Except.ok [])
        (fun l => Except.ok ((fun _ => "AAA") l)) "AAA"
        = (res, [["AAA"], ["AAA", "AAA"], ["AAA", "AAA", "AAA"]])
      ∧ (res = FactorResult.empty ∨ res = FactorResult.noneStr) :=
  verify_factor_three_rounds [⟨"AAA", "-"⟩, ⟨"BBB", "aaa"⟩] [] ⟨[], []⟩
    (fun _ => Except.error ()) (fun _ => Except.error ())
    (fun _ => Except.error ()) (fun _ => Except.ok [])
    (fun _ => "AAA") "AAA" "AAA" "AAA" rfl rfl
    (by decide) (by decide) (by intro syn h; cases h)
    (by decide) (by decide) (by intro syn h; cases h)
    (by decide) (by decide) (by intro syn h; cases h)
